import Mathlib

/-!
Verification of the installed-state database and package-installation engine
(`database.c` of an apk-style package manager) against its specification.

The C source is shallowly embedded: strings are `List Char`, machine integers
are `Nat`, the filesystem is an explicit oracle mapping paths to content
digests, and fallible parsing returns `Option`.  Content digests are modelled
as opaque `Nat` values with the ideal-hash reading: two byte strings are equal
iff their digests are.
-/

namespace Apk

/-- A C string: list of characters (NUL-free by construction). -/
abbrev Str := List Char

/-- Directory protection modes, from the data model:
`{NONE, CHANGED, IGNORE, SYMLINKS_ONLY, ALL}`. -/
inductive ProtectMode where
  | none
  | changed
  | ignore
  | symlinksOnly
  | all
deriving DecidableEq, Repr

/-- Modelled from the spec: `apk_protect_mode_none` (declared in the database
header, not among the provided sources) tests whether a directory carries no
protection at all; only `NONE` is unprotected. -/
def apk_protect_mode_none : ProtectMode → Bool
  | .none => true
  | _ => false

/-- Strip one trailing slash, as `apk_db_dir_get` does on its argument. -/
def stripSlash (n : Str) : Str :=
  if n.getLast? = Option.some '/' then n.dropLast else n

/-- Result of `apk_fsdir_file_control`: the action applied to a staged or
installed file (COMMIT / CANCEL / APKNEW / DELETE). -/
inductive FsCtrl where
  | commit
  | cancel
  | apknew
  | delete
deriving DecidableEq, Repr

/-- A database file entry as seen by the audit: just its recorded content
checksum (`csum.type == APK_CHECKSUM_NONE` is modelled as `Option.none`). -/
structure DbFile where
  csum : Option Nat
deriving DecidableEq, Repr

/-- `apk_db_audit_file` (database.c): compare the on-disk file with the
database entry.  `disk` is the digest of the on-disk content (`Option.none`
when the file does not exist, i.e. `apk_fsdir_file_info` returns `-ENOENT`).
Returns `true` when the audit is NOT clean (C returns nonzero).
A missing on-disk file yields `r != -ENOENT`, i.e. clean. -/
def apk_db_audit_file (disk : Option Nat) (dbf : Option DbFile) : Bool :=
  match disk with
  | Option.none => false
  | Option.some d =>
    match dbf with
    | Option.none => true
    | Option.some f =>
      match f.csum with
      | Option.none => true
      | Option.some c => d != c

end Apk

namespace Migrate

open Apk

/-- The old owner of a path in the installed-file index, as consulted by
`apk_db_migrate_files_for_priority`: whether its package is an overlay
pseudo-package (`pkg->name == NULL`), and its recorded checksum. -/
structure OFile where
  overlay : Bool
  csum : Option Nat
deriving DecidableEq, Repr

/-- Forget the overlay bit: an `OFile` used as an audit subject. -/
def OFile.toDbFile (o : OFile) : DbFile := ⟨o.csum⟩

/-- The control-action decision of `apk_db_migrate_files_for_priority`
(database.c lines 2896-2914) for one staged file.
`cleanProtected` is the `APK_CLEAN_PROTECTED` flag, `protect` the protection
mode of the directory, `disk` the digest of the on-disk file at the final
path, `ofile` the current owner in the installed index (if any), and `file`
the staged file's database entry carrying the new package's checksum. -/
def migrate_ctrl (cleanProtected : Bool) (protect : ProtectMode)
    (disk : Option Nat) (ofile : Option OFile) (file : DbFile) : FsCtrl :=
  if (match ofile with
      | Option.some o => o.overlay
      | Option.none => false) then
    FsCtrl.cancel
  else if !apk_protect_mode_none protect
      && apk_db_audit_file disk (ofile.map OFile.toDbFile) then
    if cleanProtected || !apk_db_audit_file disk (Option.some file) then
      FsCtrl.cancel
    else
      FsCtrl.apknew
  else
    FsCtrl.commit

end Migrate

namespace Install

open Apk

/-- `contains_control_character` (database.c lines 2529-2535). -/
def contains_control_character (s : Str) : Bool :=
  s.any (fun c => c.toNat < 0x20 || c.toNat == 0x7f)

/-- `strncmp(s, pat, pat.length) == 0` for a NUL-free pattern: does `s`
start with `pat`. -/
def startsWith (pat s : Str) : Bool :=
  s.take pat.length == pat

/-- `strstr(s, pat) != NULL`: does `pat` occur as a contiguous substring
of `s`. -/
def hasSub (pat : Str) : Str → Bool
  | [] => pat.isEmpty
  | c :: rest => startsWith pat (c :: rest) || hasSub pat rest

/-- Outcome of the entry-name checks at the top of `apk_db_install_file`:
`skipped` - the function returns 0 before extracting anything;
`warned` / `brokenFiles` - whether the malicious-file warning was printed
and `ipkg->broken_files` set. -/
structure Precheck where
  skipped : Bool
  warned : Bool
  brokenFiles : Bool
deriving DecidableEq, Repr

/-- The leading checks of `apk_db_install_file` (database.c lines 2629-2640):
a name starting with `.` returns immediately (control entries); otherwise a
name that is absolute, contains a control character, starts with `./` or
`../`, or contains `/./` or `/../` is warned about, sets `broken_files`,
and is skipped. -/
def install_file_precheck (name : Str) : Precheck :=
  if name.head? = Option.some '.' then
    ⟨true, false, false⟩
  else if (name.head? == Option.some '/')
      || contains_control_character name
      || startsWith ['.', '/'] name
      || startsWith ['.', '.', '/'] name
      || hasSub ['/', '.', '/'] name
      || hasSub ['/', '.', '.', '/'] name then
    ⟨true, true, true⟩
  else
    ⟨false, false, false⟩

/-- Result of `apk_pkg_replaces_file(opkg, pkg)` (package metadata component,
external to database.c): may the new package take over a file owned by the
old one. -/
inductive ReplacesRes where
  | yes
  | no
  | conflict
deriving DecidableEq, Repr

/-- Outcome of the ownership-conflict check in `apk_db_install_file`
(database.c lines 2696-2715): whether installation of the entry proceeds,
and which diagnostics were produced.  The global file index is never touched
here (a skip returns immediately; on proceed the new `apk_db_file_new` node
is explicitly NOT added to the hash). -/
structure ConflictOutcome where
  proceed : Bool
  errored : Bool
  warned : Bool
  brokenFiles : Bool
deriving DecidableEq, Repr

/-- The conflict decision of `apk_db_install_file`: `owner` is the owning
package of an existing file at the same `(dir, name)` key, if any;
`forceOverwrite` is the `APK_FORCE_OVERWRITE` flag. -/
def install_file_conflict (forceOverwrite : Bool) (ownerExists : Bool)
    (rep : ReplacesRes) : ConflictOutcome :=
  if !ownerExists then
    ⟨true, false, false, false⟩
  else
    match rep with
    | ReplacesRes.conflict =>
      if forceOverwrite then ⟨true, false, true, false⟩
      else ⟨false, true, false, true⟩
    | ReplacesRes.no => ⟨false, false, false, false⟩
    | ReplacesRes.yes => ⟨true, false, false, false⟩

end Install

namespace Purge

open Apk

/-- An owned file of a `DirInstance` as traversed by `apk_db_purge_pkg`:
its name and recorded content checksum. -/
structure PFile where
  name : Str
  csum : Option Nat
deriving DecidableEq, Repr

/-- A `DirInstance` of the package being purged: directory path, the
directory's protection mode, and the intrusive list of owned files. -/
structure PDiri where
  dirname : Str
  protect : ProtectMode
  files : List PFile
deriving DecidableEq, Repr

/-- Key of the global file index: `(dirname, filename)`. -/
abbrev Key := Str × Str

/-- The parts of the database state that `apk_db_purge_pkg` mutates:
the global file index (`db->installed.files`, keyed by `(dir, file)`), the
installed-file counter (`db->installed.stats.files`), and the trace of
`apk_fsdir_file_control` calls issued to the filesystem layer. -/
structure PurgeSt where
  index : List Key
  stats : Nat
  actions : List (Key × FsCtrl)
deriving DecidableEq, Repr

/-- The control-issue condition of `apk_db_purge_pkg` (database.c lines
2836-2839) for one owned file: issue unless this is an installed package
with a protected, audit-failing file and `APK_PURGE` unset. -/
def fileIssue (purgeFlag : Bool) (disk : Key → Option Nat) (isInstalled : Bool)
    (protect : ProtectMode) (dirname : Str) (f : PFile) : Bool :=
  !isInstalled || apk_protect_mode_none protect || purgeFlag
    || !apk_db_audit_file (disk (dirname, f.name)) (Option.some ⟨f.csum⟩)

/-- Per-file body of `apk_db_purge_pkg` (database.c lines 2830-2847):
decide whether to issue the control action (`DELETE` when purging an
installed package, `CANCEL` otherwise), then unlink the file and, for an
installed package, delete it from the global index and drop the counter.
`disk` maps a key to the digest of the on-disk content at that path. -/
def purge_file (purgeFlag : Bool) (disk : Key → Option Nat)
    (isInstalled : Bool) (protect : ProtectMode) (dirname : Str)
    (f : PFile) (s : PurgeSt) : PurgeSt :=
  let key : Key := (dirname, f.name)
  let ctrl := if isInstalled then FsCtrl.delete else FsCtrl.cancel
  let s :=
    if fileIssue purgeFlag disk isInstalled protect dirname f then
      { s with actions := s.actions ++ [(key, ctrl)] }
    else s
  if isInstalled then
    { s with index := s.index.erase key, stats := s.stats - 1 }
  else s

/-- Per-directory body of `apk_db_purge_pkg`: purge each owned file in list
order.  (Marking the dir modified and freeing the `DirInstance` touch the
directory tree, modelled separately.) -/
def purge_diri (purgeFlag : Bool) (disk : Key → Option Nat)
    (isInstalled : Bool) (d : PDiri) (s : PurgeSt) : PurgeSt :=
  d.files.foldl (fun s f => purge_file purgeFlag disk isInstalled d.protect d.dirname f s) s

/-- `apk_db_purge_pkg` (database.c lines 2812-2852), restricted to its
effect on the file index, the file counter and the filesystem actions. -/
def apk_db_purge_pkg (purgeFlag : Bool) (disk : Key → Option Nat)
    (isInstalled : Bool) (dirs : List PDiri) (s : PurgeSt) : PurgeSt :=
  dirs.foldl (fun s d => purge_diri purgeFlag disk isInstalled d s) s

/-- All `(dir, file)` keys owned by the package, in traversal order. -/
def ownedKeys (dirs : List PDiri) : List Key :=
  dirs.flatMap (fun d => d.files.map (fun f => (d.dirname, f.name)))

/-- The filesystem actions one owned file contributes to the purge trace. -/
def fileAction (purgeFlag : Bool) (disk : Key → Option Nat) (isInstalled : Bool)
    (protect : ProtectMode) (dirname : Str) (f : PFile) : List (Key × FsCtrl) :=
  if fileIssue purgeFlag disk isInstalled protect dirname f then
    [((dirname, f.name), if isInstalled then FsCtrl.delete else FsCtrl.cancel)]
  else []

/-- The full filesystem-action trace of a purge, in traversal order. -/
def purgeActions (purgeFlag : Bool) (disk : Key → Option Nat) (isInstalled : Bool)
    (dirs : List PDiri) : List (Key × FsCtrl) :=
  dirs.flatMap (fun d => d.files.flatMap (fileAction purgeFlag disk isInstalled d.protect d.dirname))

end Purge

namespace Reg

open Apk

/-- An `apk_package` restricted to the fields `apk_db_pkg_add` touches.
`csum` is the content digest (primary key); `ipkg` an opaque handle to the
installed-state record; `provides` the names this package provides. -/
structure Package where
  csum : Nat
  name : Option Str
  version : Option Str
  license : Option Str
  filename : Option Str
  ipkg : Option Nat
  repos : Nat
  provides : List Str
deriving DecidableEq, Repr

/-- The package registry (`db->available.packages`, keyed by digest) plus
the provider records that `apk_db_pkg_add` inserts into the name table. -/
structure Registry where
  packages : List Package
  providers : List (Str × Nat)
deriving DecidableEq, Repr

/-- Repository index of the local cache; repository 0 is always the cache. -/
def APK_REPOSITORY_CACHED : Nat := 0

/-- The interned empty blob `apk_atom_null` used as default license. -/
def nullAtom : Str := []

/-- Hash lookup by content digest. -/
def findPkg (ps : List Package) (csum : Nat) : Option Package :=
  ps.find? (fun p => p.csum == csum)

/-- `apk_db_pkg_add` (database.c lines 552-587).  Returns the updated
registry and the package object handed back to the caller (`NULL` when the
package has no name or version).  A digest already present merges: the
existing entry's `repos` is or-ed with the incoming mask, `filename` and
`ipkg` are taken from the new package only when the existing ones are null,
and the existing entry is returned; otherwise the package is inserted
together with its provider records. -/
def apk_db_pkg_add (db : Registry) (pkg : Package) : Registry × Option Package :=
  if pkg.name = Option.none ∨ pkg.version = Option.none then (db, Option.none)
  else
    let pkg := { pkg with license := Option.some (pkg.license.getD nullAtom) }
    let pkg :=
      if pkg.filename.isSome then
        { pkg with repos := pkg.repos ||| (1 <<< APK_REPOSITORY_CACHED) }
      else pkg
    match findPkg db.packages pkg.csum with
    | Option.none =>
      let provs := (match pkg.name with
        | Option.some n => [(n, pkg.csum)]
        | Option.none => []) ++ pkg.provides.map (fun n => (n, pkg.csum))
      ({ packages := db.packages ++ [pkg],
         providers := db.providers ++ provs }, Option.some pkg)
    | Option.some idb =>
      let idb := { idb with
        repos := idb.repos ||| pkg.repos,
        filename := if idb.filename = Option.none then pkg.filename else idb.filename,
        ipkg := if idb.ipkg = Option.none then pkg.ipkg else idb.ipkg }
      ({ db with packages :=
          db.packages.map (fun q => if q.csum == pkg.csum then idb else q) },
       Option.some idb)

end Reg

namespace Trig

open Apk

/-- Glob matching with explicit fuel; every step shortens the pattern or
the subject, so `p.length + s.length + 1` fuel always suffices. -/
def fnmatchGo : Nat → Str → Str → Bool
  | 0, _, _ => false
  | _ + 1, [], s => s.isEmpty
  | fuel + 1, '*' :: ps, s =>
    fnmatchGo fuel ps s ||
      (match s with
       | [] => false
       | c :: cs => c != '/' && fnmatchGo fuel ('*' :: ps) cs)
  | fuel + 1, '?' :: ps, s =>
    (match s with
     | [] => false
     | c :: cs => c != '/' && fnmatchGo fuel ps cs)
  | fuel + 1, c :: ps, s =>
    (match s with
     | [] => false
     | d :: cs => c == d && fnmatchGo fuel ps cs)

/-- Modelled from the spec: POSIX `fnmatch` with `FNM_PATHNAME` (glob
matching where `*` and `?` never match `/`), restricted to the `*`, `?`
and literal-character constructs; bracket expressions and escapes are not
used by any claim.  `fnmatch` is a libc collaborator, not part of the
provided sources. -/
def fnmatch (p s : Str) : Bool := fnmatchGo (p.length + s.length + 1) p s

/-- An installed package on the `db->installed.triggers` list: the
`run_all_triggers` flag, the registered trigger glob patterns, and the
queued `pending_triggers` argument list (`Option.none` is the leading
`NULL` placeholder for the script name). -/
structure TIpkg where
  run_all_triggers : Bool
  triggers : List Str
  pending_triggers : List (Option Str)
deriving DecidableEq, Repr

/-- A directory node as inspected by `fire_triggers`: its rooted name
(`/`-prefixed path) and the `modified` flag. -/
structure TDir where
  rooted_name : Str
  modified : Bool
deriving DecidableEq, Repr

/-- The database state `fire_triggers` reads and writes: the pending
trigger counter and the FIFO list of trigger-registering packages. -/
structure TDb where
  pending_triggers : Nat
  ipkgs : List TIpkg
deriving DecidableEq, Repr

/-- Does some registered pattern of `ipkg` fire for directory `dbd`: the
pattern must begin with `/` and glob-match the rooted name (the loop in
database.c lines 2014-2031 breaks at the first such pattern). -/
def trigger_match (dbd : TDir) (ipkg : TIpkg) : Bool :=
  ipkg.triggers.any (fun p => p.head? == Option.some '/' && fnmatch p dbd.rooted_name)

/-- Body of the `list_for_each_entry` loop of `fire_triggers` (database.c
lines 2010-2032) for one package: skip unless `run_all_triggers` or the dir
is modified; on the first matching rooted pattern append the rooted name,
preceded on the very first append by the `NULL` placeholder, which also
bumps the database-wide counter. -/
def fire_one (dbd : TDir) (ipkg : TIpkg) (pending : Nat) : TIpkg × Nat :=
  if !ipkg.run_all_triggers && !dbd.modified then (ipkg, pending)
  else if trigger_match dbd ipkg then
    let first := ipkg.pending_triggers.isEmpty
    let pt := if first then ipkg.pending_triggers ++ [Option.none]
              else ipkg.pending_triggers
    ({ ipkg with pending_triggers := pt ++ [Option.some dbd.rooted_name] },
     if first then pending + 1 else pending)
  else (ipkg, pending)

/-- `fire_triggers` (database.c lines 2003-2035) for one directory of the
hash sweep: process every package on the triggers list in order. -/
def fire_triggers (dbd : TDir) (db : TDb) : TDb :=
  let step := db.ipkgs.foldl
    (fun (acc : List TIpkg × Nat) ipkg =>
      let r := fire_one dbd ipkg acc.2
      (acc.1 ++ [r.1], r.2))
    ([], db.pending_triggers)
  ⟨step.2, step.1⟩

/-- `apk_db_fire_triggers` (database.c lines 2037-2041): sweep every
directory in the hash (given here as a list in iteration order) and return
the database's pending-trigger counter. -/
def apk_db_fire_triggers (dirs : List TDir) (db : TDb) : TDb × Nat :=
  let db := dirs.foldl (fun db d => fire_triggers d db) db
  (db, db.pending_triggers)

end Trig

namespace Fdb

open Apk

/-- A content checksum as stored in `apk_checksum`: `ctype` is the byte
count of the digest (`csum.type`; MD5 = 16, SHA-1 = 20) and `data` the
digest bytes.  `APK_CHECKSUM_NONE` is modelled as `Option.none` at the
use sites. -/
structure Csum where
  ctype : Nat
  data : List Nat
deriving DecidableEq, Repr

/-- A well-formed checksum: at least one byte, a type byte that fits in
one byte, and digest bytes that are bytes. -/
def ValidCsum (c : Csum) : Prop :=
  c.ctype = c.data.length ∧ 0 < c.ctype ∧ c.ctype < 256 ∧ ∀ b ∈ c.data, b < 256

/-- An interned ACL tuple (`apk_db_acl`): mode, uid, gid and optional
xattr digest.  Interning makes handle equality value equality. -/
structure Acl where
  mode : Nat
  uid : Nat
  gid : Nat
  xattr_csum : Option Csum
deriving DecidableEq, Repr

/-- The default directory ACL `0755,0,0` atomized at open time. -/
def apk_default_acl_dir : Acl := ⟨0o755, 0, 0, Option.none⟩

/-- The default file ACL `0644,0,0` atomized at open time. -/
def apk_default_acl_file : Acl := ⟨0o644, 0, 0, Option.none⟩

/-- The character for one digit value (decimal or octal). -/
def digitChar (d : Nat) : Char :=
  match d with
  | 0 => '0' | 1 => '1' | 2 => '2' | 3 => '3' | 4 => '4'
  | 5 => '5' | 6 => '6' | 7 => '7' | 8 => '8' | _ => '9'

/-- `apk_blob_push_uint` (blob helper of this repository, not among the
provided sources; decimal/octal rendering per the field table of the spec):
most-significant-first digits of `n` in the given base, `"0"` for zero. -/
def push_uint (base n : Nat) : Str :=
  if n = 0 then ['0'] else ((Nat.digits base n).reverse.map digitChar)

/-- Is `c` a digit of the given base (bases up to 10)? -/
def isBaseDigit (base : Nat) (c : Char) : Bool :=
  48 ≤ c.toNat && c.toNat < 48 + base

/-- `apk_blob_pull_uint` (blob helper, not among the provided sources):
greedily consume digits of the base, returning the value and the rest.
No digits yield zero without error, as in the C helper. -/
def pull_uint (base : Nat) : Nat → Str → Nat × Str
  | acc, [] => (acc, [])
  | acc, c :: cs =>
    if isBaseDigit base c then pull_uint base (acc * base + (c.toNat - 48)) cs
    else (acc, c :: cs)

/-- Hex character of a nibble (lowercase, as `apk_blob_push_hexdump`). -/
def hexChar (d : Nat) : Char :=
  match d with
  | 0 => '0' | 1 => '1' | 2 => '2' | 3 => '3' | 4 => '4'
  | 5 => '5' | 6 => '6' | 7 => '7' | 8 => '8' | 9 => '9'
  | 10 => 'a' | 11 => 'b' | 12 => 'c' | 13 => 'd' | 14 => 'e' | _ => 'f'

/-- Value of a hex character, upper or lower case. -/
def hexVal (c : Char) : Option Nat :=
  if 48 ≤ c.toNat ∧ c.toNat < 58 then Option.some (c.toNat - 48)
  else if 97 ≤ c.toNat ∧ c.toNat < 103 then Option.some (c.toNat - 87)
  else if 65 ≤ c.toNat ∧ c.toNat < 71 then Option.some (c.toNat - 55)
  else Option.none

/-- Two hex characters of a byte. -/
def hexByte (b : Nat) : Str := [hexChar (b / 16), hexChar (b % 16)]

/-- Modelled from the spec: checksum text encoding (`apk_blob_push_csum`
is a blob helper of this repository not among the provided sources).
"Checksums are encoded as hex; first byte encodes length/type": the type
byte followed by the digest bytes, in hex. -/
def push_csum (c : Csum) : Str := hexByte c.ctype ++ c.data.flatMap hexByte

/-- Consume one hex-encoded byte. -/
def pullHexByte : Str → Option (Nat × Str)
  | a :: b :: rest =>
    match hexVal a, hexVal b with
    | Option.some x, Option.some y => Option.some (16 * x + y, rest)
    | _, _ => Option.none
  | _ => Option.none

/-- Consume `k` hex-encoded bytes. -/
def pullHexBytes : Nat → Str → Option (List Nat × Str)
  | 0, s => Option.some ([], s)
  | k + 1, s =>
    match pullHexByte s with
    | Option.some (b, s) =>
      match pullHexBytes k s with
      | Option.some (bs, s) => Option.some (b :: bs, s)
      | Option.none => Option.none
    | Option.none => Option.none

/-- Modelled from the spec: `apk_blob_pull_csum` — read the type byte,
then that many digest bytes, all hex; a malformed or truncated checksum is
an error (`APK_BLOB_NULL`). -/
def pull_csum (s : Str) : Option (Csum × Str) :=
  match pullHexByte s with
  | Option.some (t, s) =>
    if t = 0 then Option.none
    else
      match pullHexBytes t s with
      | Option.some (bs, s) => Option.some (⟨t, bs⟩, s)
      | Option.none => Option.none
  | Option.none => Option.none

/-- Modelled from the spec: `apk_blob_push_deps` — a dependency list is
rendered as space-separated dependency expressions (the dependency-blob
codec is not among the provided sources). -/
def push_deps : List Str → Str
  | [] => []
  | [d] => d
  | d :: d2 :: ds => d ++ [' '] ++ push_deps (d2 :: ds)

/-- Splitter on a single space, accumulating the current token. -/
def pullDepsGo (cur : Str) : Str → List Str
  | [] => [cur]
  | c :: cs => if c = ' ' then cur :: pullDepsGo [] cs else pullDepsGo (cur ++ [c]) cs

/-- Modelled from the spec: `apk_blob_pull_deps` — split the blob on
spaces into dependency expressions. -/
def pull_deps (s : Str) : List Str := pullDepsGo [] s

/-- `apk_blob_push_db_acl` (database.c lines 947-962), the value part of
an `M:`/`a:` line: `uid:gid:mode` with the uid and gid decimal, the mode
octal, and the optional xattr digest after a further colon. -/
def push_db_acl (acl : Acl) : Str :=
  push_uint 10 acl.uid ++ [':'] ++ push_uint 10 acl.gid ++ [':'] ++ push_uint 8 acl.mode ++
    (match acl.xattr_csum with
     | Option.some c => [':'] ++ push_csum c
     | Option.none => [])

/-- The ACL parsing of the `M:`/`a:` cases of `apk_db_fdb_read`
(database.c lines 871-890): pull uid, `:`, gid, `:`, octal mode, then an
optional `:`-prefixed xattr checksum.  A failed colon or checksum pull
nulls the blob, which the reader turns into a format error; trailing
characters after a parsed value are ignored, as in the C code. -/
def parse_acl (l : Str) : Option Acl :=
  let u := pull_uint 10 0 l
  match u.2 with
  | ':' :: l1 =>
    let g := pull_uint 10 0 l1
    match g.2 with
    | ':' :: l2 =>
      let m := pull_uint 8 0 l2
      match m.2 with
      | ':' :: l3 =>
        match pull_csum l3 with
        | Option.some (c, _) => Option.some ⟨m.1, u.1, g.1, Option.some c⟩
        | Option.none => Option.none
      | _ => Option.some ⟨m.1, u.1, g.1, Option.none⟩
    | _ => Option.none
  | _ => Option.none

/-- Linear tag search carrying the running index. -/
def findTagFrom (plain : Str) : Nat → List Str → Option Nat
  | _, [] => Option.none
  | i, t :: ts => if t = plain then Option.some i else findTagFrom plain (i + 1) ts

/-- `apk_db_get_tag_id` (database.c lines 1967-2001): resolve a repository
tag to its index, searching existing tags from index 1 by `@`-form or
plain form, appending a new tag on miss.  Tags are stored here as plain
names (the `@`-form is the plain name with `@` prepended); the fixed
capacity of the C tag array is not modelled, as no claim exercises it. -/
def get_tag_id (tags : List Str) (t : Str) : List Str × Nat :=
  let plain := if t.head? = Option.some '@' then t.drop 1 else t
  match findTagFrom plain 1 (tags.drop 1) with
  | Option.some i => (tags, i)
  | Option.none => (tags ++ [plain], tags.length)

/-- An installed file (`apk_db_file`): name within its directory, interned
ACL handle, optional content checksum. -/
structure DFile where
  name : Str
  acl : Acl
  csum : Option Csum
deriving DecidableEq, Repr

/-- A `DirInstance` (`apk_db_dir_instance`): the owned directory's path,
the instance's ACL handle, and the intrusive list of owned files in
insertion order. -/
structure Diri where
  dirname : Str
  acl : Acl
  files : List DFile
deriving DecidableEq, Repr

/-- An installed-package record: the index-header identity (name and
version), the installed-state fields of the `InstalledPackage`, and the
ordered dir instances. -/
structure Record where
  pname : Str
  version : Str
  replaces : List Str
  replaces_priority : Nat
  repository_tag : Nat
  broken_files : Bool
  broken_script : Bool
  broken_xattr : Bool
  sha256_160 : Bool
  dirs : List Diri
deriving DecidableEq, Repr

/-- The flag letters of the `f:` line, in the order the writer emits them
(database.c lines 994-1005). -/
def flagStr (r : Record) : Str :=
  (if r.broken_files then ['f'] else []) ++
  (if r.broken_script then ['s'] else []) ++
  (if r.broken_xattr then ['x'] else []) ++
  (if r.sha256_160 then ['S'] else [])

/-- Modelled from the spec: `apk_pkg_write_index_header` (package-metadata
component, not among the provided sources) renders the index fields of the
package; only the name and version identity matters to the claims, written
as capital-letter field lines. -/
def write_index_header (r : Record) : List Str :=
  [['P', ':'] ++ r.pname, ['V', ':'] ++ r.version]

/-- The lines emitted for one file by `apk_db_fdb_write` (database.c lines
1023-1035): the `R:` line, an `a:` line only when the ACL differs from the
default file ACL, and a `Z:` line only when a checksum is present. -/
def write_file (f : DFile) : List Str :=
  [['R', ':'] ++ f.name] ++
  (if f.acl ≠ apk_default_acl_file then [['a', ':'] ++ push_db_acl f.acl] else []) ++
  (match f.csum with
   | Option.some c => [['Z', ':'] ++ push_csum c]
   | Option.none => [])

/-- The lines emitted for one dir instance by `apk_db_fdb_write`
(database.c lines 1006-1045): the `F:` line, an `M:` line only when the
ACL differs from the default dir ACL, then the file lines. -/
def write_diri (d : Diri) : List Str :=
  [['F', ':'] ++ d.dirname] ++
  (if d.acl ≠ apk_default_acl_dir then [['M', ':'] ++ push_db_acl d.acl] else []) ++
  d.files.flatMap write_file

/-- `apk_db_fdb_write` (database.c lines 964-1051) as the list of text
lines of one record: the index header, then `r:`, `q:`, `s:`, `f:` each
only when non-default, then the dir-instance lines, then the terminating
blank line.  `tags` is `db->repo_tags` as plain names. -/
def apk_db_fdb_write (tags : List Str) (r : Record) : List Str :=
  write_index_header r ++
  (if r.replaces ≠ [] then [['r', ':'] ++ push_deps r.replaces] else []) ++
  (if r.replaces_priority ≠ 0 then [['q', ':'] ++ push_uint 10 r.replaces_priority] else []) ++
  (if r.repository_tag ≠ 0 then [['s', ':'] ++ tags.getD r.repository_tag []] else []) ++
  (if r.broken_files || r.broken_script || r.broken_xattr || r.sha256_160 then
    [['f', ':'] ++ flagStr r] else []) ++
  r.dirs.flatMap write_diri ++
  [[]]

/-- Reference to a file under construction: record number (the number of
already-finalized records means the current one), dir-instance index, file
index.  The reader's `file` cursor survives package boundaries in the C
code, hence the record number. -/
abbrev FileRef := Nat × Nat × Nat

/-- The in-progress package of the reader: `pkg` fields set by the index
header, whether `apk_pkg_install` has run, the installed-state fields, the
dir instances built so far and the current-dir cursor. -/
structure RState where
  pname : Option Str
  version : Option Str
  ipkg : Bool
  replaces : List Str
  replaces_priority : Nat
  repository_tag : Nat
  broken_files : Bool
  broken_script : Bool
  broken_xattr : Bool
  sha256_160 : Bool
  dirs : List Diri
  curDiri : Option Nat
deriving DecidableEq, Repr

/-- A fresh `apk_pkg_new` package: everything empty or default. -/
def freshRState : RState :=
  ⟨Option.none, Option.none, false, [], 0, 0, false, false, false, false, [], Option.none⟩

/-- The full reader state of `apk_db_fdb_read` over an installed layer:
the repository-tag table (which `s:` lines may extend), the finalized
records, the in-progress package, the persistent file cursor, and the
global file index `db->installed.files` mapping `(dir, file)` keys to the
location of the owning file node.  The registry-merge effect of
`apk_db_pkg_add` at end of record is modelled in the `Reg` namespace; here
only its null-return condition (missing name or version) is kept. -/
structure RdSt where
  tags : List Str
  out : List Record
  cur : Option RState
  curFile : Option FileRef
  fileIndex : List ((Str × Str) × FileRef)
deriving DecidableEq, Repr

/-- Update the element at an index, when present. -/
def listUpd (g : α → α) : Nat → List α → List α
  | _, [] => []
  | 0, x :: xs => g x :: xs
  | i + 1, x :: xs => x :: listUpd g i xs

/-- The search of `find_diri` (database.c lines 719-742): first dir
instance of the package whose dir key equals `dn`, as an index. -/
def findDiriIdx (dn : Str) : Nat → List Diri → Option Nat
  | _, [] => Option.none
  | i, d :: ds => if d.dirname = dn then Option.some i else findDiriIdx dn (i + 1) ds

/-- Association lookup in the global file index. -/
def lookupKey (k : Str × Str) : List ((Str × Str) × FileRef) → Option FileRef
  | [] => Option.none
  | kv :: rest => if kv.1 = k then Option.some kv.2 else lookupKey k rest

/-- Apply `g` to file `fi` of dir instance `di`. -/
def updDFileIn (g : DFile → DFile) (di fi : Nat) (dirs : List Diri) : List Diri :=
  listUpd (fun d => { d with files := listUpd g fi d.files }) di dirs

/-- Apply `g` to the file a `FileRef` designates, in the current package
or in an already-finalized record. -/
def updFileAt (s : RdSt) (ref : FileRef) (g : DFile → DFile) : RdSt :=
  if ref.1 = s.out.length then
    match s.cur with
    | Option.some rs =>
      { s with cur := Option.some { rs with dirs := updDFileIn g ref.2.1 ref.2.2 rs.dirs } }
    | Option.none => s
  else
    { s with out := listUpd (fun r => { r with dirs := updDFileIn g ref.2.1 ref.2.2 r.dirs }) ref.1 s.out }

/-- The flag-letter loop of the `f:` case of `apk_db_fdb_read`
(database.c lines 908-920): each letter sets its flag; an unknown letter
is the `old_apk_tools` fatal error (`APK_FORCE_OLD_APK` not set). -/
def parseFlags : RState → Str → Option RState
  | rs, [] => Option.some rs
  | rs, c :: cs =>
    if c = 'f' then parseFlags { rs with broken_files := true } cs
    else if c = 's' then parseFlags { rs with broken_script := true } cs
    else if c = 'x' then parseFlags { rs with broken_xattr := true } cs
    else if c = 'S' then parseFlags { rs with sha256_160 := true } cs
    else Option.none

/-- End-of-record handling of `apk_db_fdb_read` (database.c lines
811-831): a short line with no package in progress is skipped; otherwise
the package is installed if it was not yet (record without files) and
added to the registry, which fails (`err_fmt`) when name or version is
missing. -/
def blankStep (s : RdSt) : Option RdSt :=
  match s.cur with
  | Option.none => Option.some s
  | Option.some rs =>
    match rs.pname, rs.version with
    | Option.some n, Option.some v =>
      Option.some { s with
        out := s.out ++ [⟨n, v, rs.replaces, rs.replaces_priority, rs.repository_tag,
          rs.broken_files, rs.broken_script, rs.broken_xattr, rs.sha256_160, rs.dirs⟩],
        cur := Option.none }
    | _, _ => Option.none

/-- One field line of `apk_db_fdb_read` (database.c lines 833-928) for the
installed database (`repo == -1`).  Modelled from the spec for the index
fields: `apk_pkg_add_info` is represented by the `P` (name) and `V`
(version) lines; any other field not in the FDB switch is the
`old_apk_tools` fatal error (`APK_FORCE_OLD_APK` not set). -/
def fieldStep (s : RdSt) (field : Char) (l : Str) : Option RdSt :=
  let rs := s.cur.getD freshRState
  if field = 'P' then
    Option.some { s with cur := Option.some { rs with pname := Option.some l } }
  else if field = 'V' then
    Option.some { s with cur := Option.some { rs with version := Option.some l } }
  else
    let rs := { rs with ipkg := true }
    if field = 'F' then
      if rs.pname = Option.none then Option.none
      else
        match findDiriIdx l 0 rs.dirs with
        | Option.some i =>
          Option.some { s with cur := Option.some { rs with curDiri := Option.some i } }
        | Option.none =>
          Option.some { s with cur := Option.some { rs with
            dirs := rs.dirs ++ [⟨stripSlash l, apk_default_acl_dir, []⟩],
            curDiri := Option.some rs.dirs.length } }
    else if field = 'a' then
      match s.curFile, rs.curDiri, parse_acl l with
      | Option.some ref, Option.some _, Option.some acl =>
        Option.some (updFileAt { s with cur := Option.some rs } ref (fun f => { f with acl := acl }))
      | _, _, _ => Option.none
    else if field = 'M' then
      match rs.curDiri, parse_acl l with
      | Option.some i, Option.some acl =>
        Option.some { s with cur := Option.some { rs with
          dirs := listUpd (fun d => { d with acl := acl }) i rs.dirs } }
      | _, _ => Option.none
    else if field = 'R' then
      match rs.curDiri with
      | Option.some i =>
        let key := ((rs.dirs.getD i ⟨[], apk_default_acl_dir, []⟩).dirname, l)
        match lookupKey key s.fileIndex with
        | Option.some ref =>
          Option.some { s with cur := Option.some rs, curFile := Option.some ref }
        | Option.none =>
          let ref : FileRef := (s.out.length, i, (rs.dirs.getD i ⟨[], apk_default_acl_dir, []⟩).files.length)
          Option.some { s with
            cur := Option.some { rs with
              dirs := listUpd (fun d => { d with files := d.files ++ [⟨l, apk_default_acl_file, Option.none⟩] }) i rs.dirs },
            curFile := Option.some ref,
            fileIndex := s.fileIndex ++ [(key, ref)] }
      | Option.none => Option.none
    else if field = 'Z' then
      match s.curFile, pull_csum l with
      | Option.some ref, Option.some (c, _) =>
        Option.some (updFileAt { s with cur := Option.some rs } ref (fun f => { f with csum := Option.some c }))
      | _, _ => Option.none
    else if field = 'r' then
      Option.some { s with cur := Option.some { rs with replaces := pull_deps l } }
    else if field = 'q' then
      Option.some { s with cur := Option.some { rs with replaces_priority := (pull_uint 10 0 l).1 } }
    else if field = 's' then
      let ti := get_tag_id s.tags l
      Option.some { s with tags := ti.1, cur := Option.some { rs with repository_tag := ti.2 } }
    else if field = 'f' then
      (parseFlags rs l).map (fun rs => { s with cur := Option.some rs })
    else
      Option.none

/-- One line of `apk_db_fdb_read`: lines shorter than two characters end
the record; otherwise the second character must be `:` and the field is
dispatched. -/
def readLine (s : RdSt) (line : Str) : Option RdSt :=
  match line with
  | [] => blankStep s
  | [_] => blankStep s
  | f :: c :: rest => if c = ':' then fieldStep s f rest else Option.none

/-- Read a sequence of lines, stopping at the first format error. -/
def readAll (s : RdSt) : List Str → Option RdSt
  | [] => Option.some s
  | l :: ls =>
    match readLine s l with
    | Option.some s => readAll s ls
    | Option.none => Option.none

/-- `apk_db_fdb_read` (database.c lines 789-940) for an installed layer:
the finalized records produced from the given text lines, starting from
the given repository-tag table and empty databases. -/
def apk_db_fdb_read (tags : List Str) (lines : List Str) : Option (List Record) :=
  (readAll ⟨tags, [], Option.none, Option.none, []⟩ lines).map RdSt.out

/-- A string free of newlines: the line-based embedding is faithful only
for such values. -/
def noNl (s : Str) : Prop := '\n' ∉ s

/-- A well-formed ACL value. -/
def ValidAcl (a : Acl) : Prop :=
  match a.xattr_csum with
  | Option.some c => ValidCsum c
  | Option.none => True

/-- A well-formed dependency expression for the space-separated codec. -/
def ValidDep (d : Str) : Prop := d ≠ [] ∧ ' ' ∉ d ∧ '\n' ∉ d

/-- A well-formed installed file entry. -/
def ValidFile (f : DFile) : Prop :=
  noNl f.name ∧ ValidAcl f.acl ∧ ∀ c, f.csum = Option.some c → ValidCsum c

/-- A well-formed dir instance: canonical dir key (no trailing slash),
distinct file names, well-formed files. -/
def ValidDiri (d : Diri) : Prop :=
  noNl d.dirname ∧ d.dirname.getLast? ≠ Option.some '/' ∧ ValidAcl d.acl ∧
  (d.files.map DFile.name).Nodup ∧ ∀ f ∈ d.files, ValidFile f

/-- A well-formed repository-tag table: distinct plain names that do not
begin with `@`. -/
def ValidTags (tags : List Str) : Prop :=
  tags.Nodup ∧ ∀ t ∈ tags, noNl t ∧ t.head? ≠ Option.some '@'

/-- A valid installed-package record: newline-free identity, well-formed
dependency expressions, a resolvable repository tag, distinct dir keys and
well-formed dir instances. -/
def ValidRecord (tags : List Str) (r : Record) : Prop :=
  noNl r.pname ∧ noNl r.version ∧
  (∀ dp ∈ r.replaces, ValidDep dp) ∧
  r.repository_tag < tags.length ∧
  (r.dirs.map Diri.dirname).Nodup ∧
  ∀ d ∈ r.dirs, ValidDiri d

instance (c : Csum) : Decidable (ValidCsum c) := by
  unfold ValidCsum; infer_instance

instance (s : Str) : Decidable (noNl s) := by
  unfold noNl; infer_instance

instance (a : Acl) : Decidable (ValidAcl a) := by
  unfold ValidAcl; cases a.xattr_csum <;> infer_instance

instance (d : Str) : Decidable (ValidDep d) := by
  unfold ValidDep; infer_instance

instance (f : DFile) : Decidable (ValidFile f) := by
  unfold ValidFile
  have : Decidable (∀ c, f.csum = Option.some c → ValidCsum c) := by
    cases h : f.csum with
    | none => exact Decidable.isTrue (by intro c hc; cases hc)
    | some c =>
        cases hv : decide (ValidCsum c) with
        | true =>
            exact Decidable.isTrue (by
              intro c' hc'
              cases hc'
              exact of_decide_eq_true hv)
        | false =>
            exact Decidable.isFalse (by
              intro hall
              exact absurd (decide_eq_true (hall c rfl)) (by simp [hv]))
  infer_instance

instance (d : Diri) : Decidable (ValidDiri d) := by
  unfold ValidDiri; infer_instance

instance (tags : List Str) : Decidable (ValidTags tags) := by
  unfold ValidTags; infer_instance

instance (tags : List Str) (r : Record) : Decidable (ValidRecord tags r) := by
  unfold ValidRecord; infer_instance

/-- A line list guarded by a presence condition, used to restate the
canonical record layout in the spec's own terms. -/
def optLine (present : Bool) (l : Str) : List Str :=
  if present then [l] else []

/-- The record layout exactly as §4.4 of the spec words it: "first the
index header, then `r/q/s/f` if non-default, then for each `DirInstance`
its `F:` line, optional `M:` (only if ACL differs from the default
`0755,0,0`), then for each `File` `R:`, optional `a:` (differs from
`0644,0,0`), optional `Z:`.  Trailing blank line ends the record." -/
def spec_canonical_record (tags : List Str) (r : Record) : List Str :=
  write_index_header r ++
  optLine (r.replaces ≠ []) (['r', ':'] ++ push_deps r.replaces) ++
  optLine (r.replaces_priority ≠ 0) (['q', ':'] ++ push_uint 10 r.replaces_priority) ++
  optLine (r.repository_tag ≠ 0) (['s', ':'] ++ tags.getD r.repository_tag []) ++
  optLine (r.broken_files || r.broken_script || r.broken_xattr || r.sha256_160)
    (['f', ':'] ++ flagStr r) ++
  (r.dirs.flatMap fun d =>
    [['F', ':'] ++ d.dirname] ++
    optLine (d.acl ≠ apk_default_acl_dir) (['M', ':'] ++ push_db_acl d.acl) ++
    (d.files.flatMap fun f =>
      [['R', ':'] ++ f.name] ++
      optLine (f.acl ≠ apk_default_acl_file) (['a', ':'] ++ push_db_acl f.acl) ++
      optLine f.csum.isSome (['Z', ':'] ++ push_csum (f.csum.getD ⟨0, []⟩)))) ++
  [[]]

/-- The file-index entries contributed by the files of one dir instance,
with the dir at record `n`, diri index `di`, files numbered from `fj`. -/
def fiForFiles (n di : Nat) (dn : Str) : Nat → List DFile → List ((Str × Str) × FileRef)
  | _, [] => []
  | fj, f :: fs => ((dn, f.name), (n, di, fj)) :: fiForFiles n di dn (fj + 1) fs

/-- The file-index entries contributed by a list of dir instances of
record `n`, numbered from `di`. -/
def fiForDirs (n : Nat) : Nat → List Diri → List ((Str × Str) × FileRef)
  | _, [] => []
  | di, d :: ds => fiForFiles n di d.dirname 0 d.files ++ fiForDirs n (di + 1) ds

/-- The canonical global file index after reading dir instances `dirs` of
record `n` into a fresh database. -/
def fiFor (n : Nat) (dirs : List Diri) : List ((Str × Str) × FileRef) :=
  fiForDirs n 0 dirs

/-- Is any of the four optional installed-state field lines (`r:`, `q:`,
`s:`, `f:`) present in the written record. -/
def metaPresent (r : Record) : Bool :=
  decide (r.replaces ≠ []) || decide (r.replaces_priority ≠ 0) ||
  decide (r.repository_tag ≠ 0) ||
  (r.broken_files || r.broken_script || r.broken_xattr || r.sha256_160)

/-- Head of a string is not a digit of the base (so a greedy integer
parse stops exactly there). -/
def headNotDigit (base : Nat) (s : Str) : Prop :=
  ∀ c, s.head? = Option.some c → isBaseDigit base c = false

end Fdb

namespace DirTree

open Apk

/-- A node of the directory hash (`apk_db_dir`), restricted to what the
refcount invariant concerns: its path key, its refcount, and its parent
reference (null after the node dies or for the root). -/
structure DirNode where
  name : Str
  refs : Nat
  parent : Option Str
deriving DecidableEq, Repr

/-- Directory-tree state: the dir hash (keys are unique in any reachable
state) and the multiset of `DirInstance` records, each represented by the
key of the dir it owns. -/
structure St where
  dirs : List DirNode
  diris : List Str
deriving DecidableEq, Repr

/-- Hash lookup by path key. -/
def findDir (s : St) (n : Str) : Option DirNode :=
  s.dirs.find? (fun d => d.name == n)

/-- Store a node under key `n`, replacing an existing node or inserting a
new one (`apk_hash_insert_hashed` / in-place field updates). -/
def setDir (s : St) (n : Str) (refs : Nat) (parent : Option Str) : St :=
  if s.dirs.any (fun d => d.name == n) then
    { s with dirs := s.dirs.map (fun d => if d.name == n then ⟨n, refs, parent⟩ else d) }
  else
    { s with dirs := s.dirs ++ [⟨n, refs, parent⟩] }

/-- `apk_blob_rsplit(name, '/', &parent, NULL)`: the part before the last
slash, or `Option.none` when the name has no slash. -/
def rsplitParent (n : Str) : Option Str :=
  match n.reverse.findIdx? (fun c => c == '/') with
  | Option.some k => Option.some (n.take (n.length - 1 - k))
  | Option.none => Option.none

/-- `apk_db_dir_get` (database.c lines 334-403), restricted to its effect
on keys, refcounts and parent links, with explicit recursion fuel (the
parent key is strictly shorter than the name, so fuel `name0.length + 1`
never runs out).  The argument is stripped of one trailing slash; an
existing live node is re-referenced; otherwise the node is created (or
revived) with refcount 1 and its parent acquired recursively — the root
(empty key) has no parent, a slash-less name hangs off the root.  Returns
the new state and the canonical key. -/
def dir_get_go : Nat → St → Str → St × Str
  | 0, s, _ => (s, [])
  | fuel + 1, s, name0 =>
    let name := stripSlash name0
    match findDir s name with
    | Option.some d =>
      if 0 < d.refs then (setDir s name (d.refs + 1) d.parent, name)
      else if name = [] then (setDir s name 1 Option.none, name)
      else
        let r := dir_get_go fuel s ((rsplitParent name).getD [])
        (setDir r.1 name 1 (Option.some r.2), name)
    | Option.none =>
      if name = [] then (setDir s name 1 Option.none, name)
      else
        let r := dir_get_go fuel s ((rsplitParent name).getD [])
        (setDir r.1 name 1 (Option.some r.2), name)

/-- `apk_db_dir_get` at its natural fuel. -/
def dir_get (s : St) (name0 : Str) : St × Str := dir_get_go (name0.length + 1) s name0

/-- `apk_db_dir_unref` (database.c lines 302-320) with explicit recursion
fuel: decrement the refcount; on reaching zero clear the node (parent link
nulled) and unref the parent transitively (the root has none).  In any
reachable state a live dir's parent chain strictly shrinks in key length,
so fuel `n.length + 1` never runs out; a missing node (a C null
dereference, unreachable from reachable states) is a no-op. -/
def dir_unref_go : Nat → St → Str → St
  | 0, s, _ => s
  | fuel + 1, s, n =>
    match findDir s n with
    | Option.none => s
    | Option.some d =>
      if 1 < d.refs then setDir s n (d.refs - 1) d.parent
      else if n = [] then setDir s n 0 d.parent
      else
        let s1 := setDir s n 0 Option.none
        match d.parent with
        | Option.some p => dir_unref_go fuel s1 p
        | Option.none => s1

/-- `apk_db_dir_unref` at its natural fuel. -/
def dir_unref (s : St) (n : Str) : St := dir_unref_go (n.length + 1) s n

/-- `apk_db_diri_new` (database.c lines 405-422): acquire the dir and
record the new `DirInstance`. -/
def diri_new (s : St) (name : Str) : St :=
  let r := dir_get s name
  { r.1 with diris := r.1.diris ++ [r.2] }

/-- `apk_db_diri_free` (database.c lines 441-451): drop the
`DirInstance` at position `i` and release its dir reference. -/
def diri_free (s : St) (i : Nat) : St :=
  match s.diris.get? i with
  | Option.some n => dir_unref { s with diris := s.diris.eraseIdx i } n
  | Option.none => s

/-- States reachable from the empty database by creating and freeing
`DirInstance`s. -/
inductive Reach : St → Prop where
  | init : Reach ⟨[], []⟩
  | step_new : ∀ {s} (name : Str), Reach s → Reach (diri_new s name)
  | step_free : ∀ {s} (i : Nat), Reach s → Reach (diri_free s i)

/-- Number of `DirInstance` records owning the dir with key `n`. -/
def diriCount (s : St) (n : Str) : Nat :=
  (s.diris.filter (fun m => m == n)).length

/-- Number of live dirs whose parent link names `n`. -/
def childCount (s : St) (n : Str) : Nat :=
  (s.dirs.filter (fun c => 0 < c.refs && c.parent == Option.some n)).length

/-- Structural sanity of the dir hash: unique keys, every `DirInstance`
names a live dir, every live dir's parent link names a live dir that is
present, and parent keys are strictly shorter than child keys. -/
structure InvCore (s : St) : Prop where
  nodup : (s.dirs.map DirNode.name).Nodup
  diris_live : ∀ m ∈ s.diris, ∃ d ∈ s.dirs, d.name = m ∧ 0 < d.refs
  parent_live : ∀ d ∈ s.dirs, 0 < d.refs →
    ∀ p, d.parent = Option.some p → ∃ e ∈ s.dirs, e.name = p ∧ 0 < e.refs
  parent_shorter : ∀ d ∈ s.dirs, ∀ p, d.parent = Option.some p →
    p.length < d.name.length

/-- The amended refcount invariant: a dir's refcount equals the number of
owning `DirInstance`s plus the number of live child dirs holding a parent
reference on it. -/
def Inv (s : St) : Prop :=
  InvCore s ∧ ∀ d ∈ s.dirs, d.refs = diriCount s d.name + childCount s d.name

/-- The invariant with one pending (caller-held) reference on key `n`:
the state between `apk_db_dir_get` returning and the caller recording or
releasing the reference. -/
def InvExcept (s : St) (n : Str) : Prop :=
  InvCore s ∧
  (∃ d ∈ s.dirs, d.name = n ∧ d.refs = diriCount s n + childCount s n + 1) ∧
  ∀ d ∈ s.dirs, d.name ≠ n → d.refs = diriCount s d.name + childCount s d.name

end DirTree

/-!
Theorems.  Each claim of the specification is settled below; shared helper
lemmas come first within each group.
-/

namespace Trig

theorem trigger_match_unrooted {dbd : TDir} {ipkg : TIpkg}
    (h : ∀ p ∈ ipkg.triggers, p.head? ≠ Option.some '/') :
    trigger_match dbd ipkg = false := by
  simp only [trigger_match, List.any_eq_false]
  intro p hp
  have := h p hp
  simp [this]

theorem fire_one_no_match {dbd : TDir} {ipkg : TIpkg} {p : Nat}
    (h : trigger_match dbd ipkg = false) :
    fire_one dbd ipkg p = (ipkg, p) := by
  unfold fire_one
  split
  · rfl
  · simp [h]

theorem fire_one_fst_const (dbd : TDir) (ipkg : TIpkg) (p : Nat) :
    (fire_one dbd ipkg p).1 = (fire_one dbd ipkg 0).1 := by
  unfold fire_one
  split
  · rfl
  · split <;> rfl

theorem fire_fold_fst (dbd : TDir) (l : List TIpkg) (acc : List TIpkg) (p : Nat) :
    (l.foldl (fun (acc : List TIpkg × Nat) ipkg =>
        let r := fire_one dbd ipkg acc.2
        (acc.1 ++ [r.1], r.2)) (acc, p)).1
      = acc ++ l.map (fun x => (fire_one dbd x 0).1) := by
  induction l generalizing acc p with
  | nil => simp
  | cons x xs ih =>
    simp only [List.foldl_cons, List.map_cons]
    rw [ih]
    rw [fire_one_fst_const]
    simp

theorem fire_triggers_ipkgs (dbd : TDir) (db : TDb) :
    (fire_triggers dbd db).ipkgs = db.ipkgs.map (fun x => (fire_one dbd x 0).1) := by
  unfold fire_triggers
  exact fire_fold_fst dbd db.ipkgs [] db.pending_triggers

end Trig

/-- C6 counterexample: a sweep over a table holding one modified directory
`/a`, with one package on the triggers list that has `run_all_triggers`
set but whose only (rooted) glob `/b` does not match, queues nothing and
returns 0 — the claim would have `fire_triggers` append the dir path for
every `run_all_triggers` package and return a positive counter. -/
theorem C6_counterexample :
    Trig.apk_db_fire_triggers [⟨['/', 'a'], true⟩] ⟨0, [⟨true, [['/', 'b']], []⟩]⟩
        = (⟨0, [⟨true, [['/', 'b']], []⟩]⟩, 0)
      ∧ (⟨true, [['/', 'b']], []⟩ : Trig.TIpkg).run_all_triggers = true
      ∧ (⟨['/', 'a'], true⟩ : Trig.TDir).modified = true := by
  refine ⟨?_, rfl, rfl⟩
  decide

/-- C6 (amended): during a sweep, a package is handed a pending trigger
for a directory exactly when the package has `run_all_triggers` set OR the
directory is modified, AND one of its registered glob patterns is rooted
and matches the directory's rooted name; the first append for a package
also inserts the leading `NULL` placeholder and increments the
database-wide counter, and `apk_db_fire_triggers` returns that counter. -/
theorem C6_fire_triggers (dbd : Trig.TDir) (ipkg : Trig.TIpkg) (p : Nat)
    (dirs : List Trig.TDir) (db : Trig.TDb) :
    (Trig.fire_one dbd ipkg p =
      if (ipkg.run_all_triggers || dbd.modified) && Trig.trigger_match dbd ipkg then
        (⟨ipkg.run_all_triggers, ipkg.triggers,
          (if ipkg.pending_triggers.isEmpty then ipkg.pending_triggers ++ [Option.none]
           else ipkg.pending_triggers) ++ [Option.some dbd.rooted_name]⟩,
         if ipkg.pending_triggers.isEmpty then p + 1 else p)
      else (ipkg, p))
    ∧ (Trig.apk_db_fire_triggers dirs db).2
        = (Trig.apk_db_fire_triggers dirs db).1.pending_triggers := by
  constructor
  · cases hr : ipkg.run_all_triggers <;> cases hm : dbd.modified <;>
      cases ht : Trig.trigger_match dbd ipkg <;>
      simp [Trig.fire_one, hr, hm, ht]
  · rfl

/-- C10: a package on the triggers list none of whose glob patterns
begins with `/` never receives a pending trigger: after any sweep its
entry is unchanged. -/
theorem C10_unrooted_never_queued (dirs : List Trig.TDir) (db : Trig.TDb)
    (i : Nat) (ipkg : Trig.TIpkg)
    (hi : db.ipkgs[i]? = Option.some ipkg)
    (h : ∀ p ∈ ipkg.triggers, p.head? ≠ Option.some '/') :
    (Trig.apk_db_fire_triggers dirs db).1.ipkgs[i]? = Option.some ipkg := by
  induction dirs generalizing db with
  | nil => simpa [Trig.apk_db_fire_triggers] using hi
  | cons d ds ih =>
    have hstep : Trig.apk_db_fire_triggers (d :: ds) db
        = Trig.apk_db_fire_triggers ds (Trig.fire_triggers d db) := rfl
    rw [hstep]
    refine ih _ ?_
    rw [Trig.fire_triggers_ipkgs]
    rw [List.getElem?_map, hi]
    simp [Trig.fire_one_no_match (Trig.trigger_match_unrooted h)]

/-- C10 witness: the single package with the unrooted pattern `b*` is
untouched by a sweep over a modified directory. -/
theorem C10_witness :
    (Trig.apk_db_fire_triggers [⟨['/', 'a'], true⟩]
        ⟨0, [⟨false, [['b', '*']], []⟩]⟩).1.ipkgs[0]?
      = Option.some ⟨false, [['b', '*']], []⟩ := by
  apply C10_unrooted_never_queued
  · rfl
  · intro p hp
    simp only [List.mem_singleton] at hp
    subst hp
    decide

/-- C3 counterexample: the archive entry `../etc/shadow` begins with `.`,
so `apk_db_install_file` returns before the sanity check: the entry is
skipped, but silently — no warning is printed and `broken_files` stays
unset, contrary to the claim's expectation of a warning and
`broken_files=1`. -/
theorem C3_counterexample :
    Install.install_file_precheck
        ['.', '.', '/', 'e', 't', 'c', '/', 's', 'h', 'a', 'd', 'o', 'w']
      = ⟨true, false, false⟩ := by
  decide

/-- C3 (amended): for every archive entry whose name does not begin with
`.`, if the path is absolute, contains a control character, or contains
`/./` or `/../`, the per-entry installer skips the entry before writing
anything, emits the malicious-file warning and sets `broken_files`; an
entry whose name begins with `.` (such as `../etc/shadow`) is skipped
silently with neither effect. -/
theorem C3_sanitize (name : Apk.Str)
    (hdot : name.head? ≠ Option.some '.')
    (hbad : name.head? = Option.some '/'
      ∨ Install.contains_control_character name = true
      ∨ Install.hasSub ['/', '.', '/'] name = true
      ∨ Install.hasSub ['/', '.', '.', '/'] name = true) :
    Install.install_file_precheck name = ⟨true, true, true⟩ := by
  unfold Install.install_file_precheck
  rw [if_neg hdot, if_pos]
  rcases hbad with h | h | h | h <;> simp [h]

/-- C3 witness: an absolute path is rejected with warning and
`broken_files`. -/
theorem C3_sanitize_witness :
    Install.install_file_precheck ['/', 'e', 't', 'c'] = ⟨true, true, true⟩ := by
  apply C3_sanitize
  · decide
  · exact Or.inl rfl

/-- C4: the ownership-conflict handling of `apk_db_install_file`.  A
`CONFLICT` verdict without `FORCE_OVERWRITE` reports an error, sets
`broken_files` and skips the entry (nothing is staged; the function
returns before `apk_db_file_new`, and the per-entry installer never
touches the global file index, so the previous owner's entry is
untouched); with the flag it warns and proceeds; `NO` skips silently and
`YES` proceeds silently. -/
theorem C4_conflict_handling (force : Bool) :
    Install.install_file_conflict false true Install.ReplacesRes.conflict
        = ⟨false, true, false, true⟩
    ∧ Install.install_file_conflict true true Install.ReplacesRes.conflict
        = ⟨true, false, true, false⟩
    ∧ Install.install_file_conflict force true Install.ReplacesRes.no
        = ⟨false, false, false, false⟩
    ∧ Install.install_file_conflict force true Install.ReplacesRes.yes
        = ⟨true, false, false, false⟩ := by
  cases force <;> exact ⟨rfl, rfl, rfl, rfl⟩

/-- C2 counterexample: when the existing index entry for the path belongs
to an overlay pseudo-package, `apk_db_migrate_files_for_priority` chooses
`CANCEL` before ever looking at the protected-directory logic — here the
directory is protected (`CHANGED`), the old-state audit is not clean
(disk digest 1 vs recorded 2), `CLEAN_PROTECTED` is unset and the staged
file (digest 3) differs from the on-disk file, so the claim as stated
demands `APKNEW`, yet the action is `CANCEL`. -/
theorem C2_counterexample :
    Migrate.migrate_ctrl false Apk.ProtectMode.changed (Option.some 1)
        (Option.some ⟨true, Option.some 2⟩) ⟨Option.some 3⟩ = Apk.FsCtrl.cancel
      ∧ Apk.apk_protect_mode_none Apk.ProtectMode.changed = false
      ∧ Apk.apk_db_audit_file (Option.some 1)
          ((Option.some (⟨true, Option.some 2⟩ : Migrate.OFile)).map Migrate.OFile.toDbFile) = true
      ∧ Apk.apk_db_audit_file (Option.some 1)
          (Option.some (⟨Option.some 3⟩ : Apk.DbFile)) = true
      ∧ Apk.FsCtrl.cancel ≠ Apk.FsCtrl.apknew := by
  refine ⟨?_, rfl, ?_, ?_, ?_⟩ <;> decide

/-- C2 (amended): during migration into a directory whose protect mode is
not none, when the old index entry (if any) is not an overlay entry and
the audit of the old on-disk state is not clean, the action is `CANCEL`
exactly when `CLEAN_PROTECTED` is set or the staged file matches the
on-disk content, and `APKNEW` otherwise; moreover a staged file whose
digest equals the on-disk digest never yields `APKNEW` under any
circumstances, and when the staged, on-disk and old-recorded digests all
differ (overlay absent, flag unset, directory protected) the action is
`APKNEW`. -/
theorem C2_migrate_protected (cp : Bool) (pm : Apk.ProtectMode)
    (disk : Option Nat) (ofile : Option Migrate.OFile) (file : Apk.DbFile)
    (hov : ∀ o, ofile = Option.some o → o.overlay = false)
    (hpm : Apk.apk_protect_mode_none pm = false)
    (hau : Apk.apk_db_audit_file disk (ofile.map Migrate.OFile.toDbFile) = true) :
    (Migrate.migrate_ctrl cp pm disk ofile file =
      if cp || !Apk.apk_db_audit_file disk (Option.some file) then
        Apk.FsCtrl.cancel
      else Apk.FsCtrl.apknew)
    ∧ (∀ (cp2 : Bool) (pm2 : Apk.ProtectMode) (ofile2 : Option Migrate.OFile) (d : Nat),
        Migrate.migrate_ctrl cp2 pm2 (Option.some d) ofile2 ⟨Option.some d⟩
          ≠ Apk.FsCtrl.apknew)
    ∧ (∀ (pm3 : Apk.ProtectMode) (d c oc : Nat),
        Apk.apk_protect_mode_none pm3 = false → c ≠ d → oc ≠ d →
        Migrate.migrate_ctrl false pm3 (Option.some d)
            (Option.some ⟨false, Option.some oc⟩) ⟨Option.some c⟩
          = Apk.FsCtrl.apknew) := by
  refine ⟨?_, ?_, ?_⟩
  · cases ofile with
    | none =>
      simp only [Option.map_none'] at hau
      simp [Migrate.migrate_ctrl, hpm, hau]
    | some o =>
      have ho := hov o rfl
      simp only [Option.map_some'] at hau
      simp [Migrate.migrate_ctrl, hpm, hau, ho]
  · intro cp2 pm2 ofile2 d
    unfold Migrate.migrate_ctrl
    have hclean : Apk.apk_db_audit_file (Option.some d)
        (Option.some (⟨Option.some d⟩ : Apk.DbFile)) = false := by
      simp [Apk.apk_db_audit_file]
    split
    · simp
    · split
      · rw [hclean]
        simp
      · simp
  · intro pm3 d c oc hpm3 hc hoc
    unfold Migrate.migrate_ctrl
    have h1 : Apk.apk_db_audit_file (Option.some d)
        (Option.some (⟨Option.some oc⟩ : Apk.DbFile)) = true := by
      simp [Apk.apk_db_audit_file]
      exact fun h => hoc h.symm
    have h2 : Apk.apk_db_audit_file (Option.some d)
        (Option.some (⟨Option.some c⟩ : Apk.DbFile)) = true := by
      simp [Apk.apk_db_audit_file]
      exact fun h => hc h.symm
    simp [Migrate.migrate_ctrl, Migrate.OFile.toDbFile, hpm3, h1, h2]

/-- C2 witness: a protected `/etc`-style directory, old entry recorded
with digest 2 while the disk holds digest 1, staged digest 3, no flags:
the migration action is `APKNEW`. -/
theorem C2_witness :
    Migrate.migrate_ctrl false Apk.ProtectMode.changed (Option.some 1)
        (Option.some ⟨false, Option.some 2⟩) ⟨Option.some 3⟩ = Apk.FsCtrl.apknew := by
  have h := C2_migrate_protected false Apk.ProtectMode.changed (Option.some 1)
    (Option.some ⟨false, Option.some 2⟩) ⟨Option.some 3⟩
    (by intro o ho; cases ho; rfl) (by decide) (by decide)
  simpa using h.1

/-- C7: `apk_db_pkg_add` keeps the content digest a unique primary key.
Adding a package whose digest is already registered inserts nothing: the
existing entry's `repos` mask is or-ed with the incoming one (after
`pkg_add`'s canonicalization, which adds the cache bit when a filename is
set), `filename` and `ipkg` are taken from the new package only when the
existing ones are null, every other field of the existing entry is kept,
the registry's key list is unchanged, and the (merged) existing entry is
returned. -/
theorem C7_pkg_add_digest_unique (db : Reg.Registry) (pkg old : Reg.Package)
    (hn : pkg.name ≠ Option.none) (hv : pkg.version ≠ Option.none)
    (hfind : Reg.findPkg db.packages pkg.csum = Option.some old) :
    ∃ merged : Reg.Package,
      Reg.apk_db_pkg_add db pkg =
        ({ db with packages :=
            db.packages.map (fun q => if q.csum == pkg.csum then merged else q) },
         Option.some merged)
      ∧ merged.csum = old.csum
      ∧ merged.repos = old.repos |||
          (if pkg.filename.isSome then pkg.repos ||| (1 <<< Reg.APK_REPOSITORY_CACHED)
           else pkg.repos)
      ∧ merged.filename = (if old.filename = Option.none then pkg.filename else old.filename)
      ∧ merged.ipkg = (if old.ipkg = Option.none then pkg.ipkg else old.ipkg)
      ∧ merged.name = old.name ∧ merged.version = old.version
      ∧ merged.license = old.license ∧ merged.provides = old.provides
      ∧ (Reg.apk_db_pkg_add db pkg).1.packages.length = db.packages.length
      ∧ (Reg.apk_db_pkg_add db pkg).1.packages.map Reg.Package.csum
          = db.packages.map Reg.Package.csum
      ∧ (Reg.apk_db_pkg_add db pkg).1.providers = db.providers := by
  have hcsum : old.csum = pkg.csum := by
    have h := List.find?_some hfind
    simpa using h
  have hcond : ¬(pkg.name = Option.none ∨ pkg.version = Option.none) := by
    rintro (h | h)
    · exact hn h
    · exact hv h
  refine ⟨{ old with
      repos := old.repos |||
        (if pkg.filename.isSome then pkg.repos ||| (1 <<< Reg.APK_REPOSITORY_CACHED)
          else pkg.repos),
      filename := if old.filename = Option.none then pkg.filename else old.filename,
      ipkg := if old.ipkg = Option.none then pkg.ipkg else old.ipkg }, ?_⟩
  have hrun : Reg.apk_db_pkg_add db pkg =
      ({ db with packages :=
          db.packages.map (fun q => if q.csum == pkg.csum then
            { old with
              repos := old.repos |||
                (if pkg.filename.isSome then pkg.repos ||| (1 <<< Reg.APK_REPOSITORY_CACHED)
                  else pkg.repos),
              filename := if old.filename = Option.none then pkg.filename else old.filename,
              ipkg := if old.ipkg = Option.none then pkg.ipkg else old.ipkg } else q) },
       Option.some { old with
          repos := old.repos |||
            (if pkg.filename.isSome then pkg.repos ||| (1 <<< Reg.APK_REPOSITORY_CACHED)
              else pkg.repos),
          filename := if old.filename = Option.none then pkg.filename else old.filename,
          ipkg := if old.ipkg = Option.none then pkg.ipkg else old.ipkg }) := by
    unfold Reg.apk_db_pkg_add
    rw [if_neg hcond]
    cases hf : pkg.filename with
    | none =>
      simp only [hf, Option.isSome_none, Bool.false_eq_true, if_false]
      have hfind2 : Reg.findPkg db.packages
          ({ pkg with license := Option.some (pkg.license.getD Reg.nullAtom) } : Reg.Package).csum
          = Option.some old := hfind
      rw [hfind2]
    | some fn =>
      simp only [hf, Option.isSome_some, if_true]
      have hfind2 : Reg.findPkg db.packages
          ({ { pkg with license := Option.some (pkg.license.getD Reg.nullAtom) } with
              repos := ({ pkg with
                  license := Option.some (pkg.license.getD Reg.nullAtom) } : Reg.Package).repos
                ||| (1 <<< Reg.APK_REPOSITORY_CACHED) } : Reg.Package).csum
          = Option.some old := hfind
      rw [hfind2]
  refine ⟨hrun, rfl, rfl, rfl, rfl, rfl, rfl, rfl, rfl, ?_, ?_, ?_⟩
  · rw [hrun]
    simp
  · rw [hrun]
    simp only [List.map_map]
    apply List.map_congr_left
    intro q hq
    by_cases hcq : q.csum = pkg.csum
    · simp [Function.comp, hcq, hcsum]
    · simp [Function.comp, hcq]
  · rw [hrun]

/-- C7 witness: merging a duplicate-digest package into a one-entry
registry leaves the registry at one entry. -/
theorem C7_witness :
    (Reg.apk_db_pkg_add ⟨[⟨7, Option.some ['a'], Option.some ['1'], Option.none,
        Option.none, Option.none, 4, []⟩], []⟩
      ⟨7, Option.some ['a'], Option.some ['2'], Option.none,
        Option.some ['f'], Option.some 9, 2, []⟩).1.packages.length = 1 := by
  obtain ⟨m, h⟩ := C7_pkg_add_digest_unique
    ⟨[⟨7, Option.some ['a'], Option.some ['1'], Option.none, Option.none, Option.none, 4, []⟩], []⟩
    ⟨7, Option.some ['a'], Option.some ['2'], Option.none, Option.some ['f'], Option.some 9, 2, []⟩
    ⟨7, Option.some ['a'], Option.some ['1'], Option.none, Option.none, Option.none, 4, []⟩
    (by simp) (by simp) (by decide)
  simpa using h.2.2.2.2.2.2.2.2.2.1

namespace Purge

open Apk

theorem purge_file_eq (p : Bool) (disk : Key → Option Nat) (inst : Bool)
    (prot : ProtectMode) (dn : Str) (f : PFile) (s : PurgeSt) :
    purge_file p disk inst prot dn f s =
      ⟨if inst then s.index.erase (dn, f.name) else s.index,
       if inst then s.stats - 1 else s.stats,
       s.actions ++ fileAction p disk inst prot dn f⟩ := by
  unfold purge_file fileAction
  cases hiss : fileIssue p disk inst prot dn f <;> cases inst <;> simp [hiss]

theorem files_fold_actions (p : Bool) (disk : Key → Option Nat) (inst : Bool)
    (prot : ProtectMode) (dn : Str) (fs : List PFile) (s : PurgeSt) :
    (fs.foldl (fun s f => purge_file p disk inst prot dn f s) s).actions
      = s.actions ++ fs.flatMap (fileAction p disk inst prot dn) := by
  induction fs generalizing s with
  | nil => simp
  | cons f fs ih =>
    simp only [List.foldl_cons, List.flatMap_cons]
    rw [ih, purge_file_eq]
    simp

theorem files_fold_index (p : Bool) (disk : Key → Option Nat) (inst : Bool)
    (prot : ProtectMode) (dn : Str) (fs : List PFile) (s : PurgeSt) :
    (fs.foldl (fun s f => purge_file p disk inst prot dn f s) s).index
      = if inst then
          (fs.map (fun f => (dn, f.name))).foldl List.erase s.index
        else s.index := by
  induction fs generalizing s with
  | nil => cases inst <;> simp
  | cons f fs ih =>
    simp only [List.foldl_cons, List.map_cons]
    rw [ih, purge_file_eq]
    cases inst <;> simp

theorem files_fold_stats (p : Bool) (disk : Key → Option Nat) (inst : Bool)
    (prot : ProtectMode) (dn : Str) (fs : List PFile) (s : PurgeSt) :
    (fs.foldl (fun s f => purge_file p disk inst prot dn f s) s).stats
      = if inst then s.stats - fs.length else s.stats := by
  induction fs generalizing s with
  | nil => cases inst <;> simp
  | cons f fs ih =>
    simp only [List.foldl_cons, List.length_cons]
    rw [ih, purge_file_eq]
    cases inst with
    | false => simp
    | true =>
      simp only [if_pos]
      omega

theorem purge_pkg_actions (p : Bool) (disk : Key → Option Nat) (inst : Bool)
    (dirs : List PDiri) (s : PurgeSt) :
    (apk_db_purge_pkg p disk inst dirs s).actions
      = s.actions ++ purgeActions p disk inst dirs := by
  induction dirs generalizing s with
  | nil => simp [apk_db_purge_pkg, purgeActions]
  | cons d ds ih =>
    show (apk_db_purge_pkg p disk inst ds (purge_diri p disk inst d s)).actions = _
    rw [ih]
    unfold purge_diri
    rw [files_fold_actions]
    simp [purgeActions]

theorem purge_pkg_index (p : Bool) (disk : Key → Option Nat) (inst : Bool)
    (dirs : List PDiri) (s : PurgeSt) :
    (apk_db_purge_pkg p disk inst dirs s).index
      = if inst then (ownedKeys dirs).foldl List.erase s.index else s.index := by
  induction dirs generalizing s with
  | nil => cases inst <;> simp [apk_db_purge_pkg, ownedKeys]
  | cons d ds ih =>
    show (apk_db_purge_pkg p disk inst ds (purge_diri p disk inst d s)).index = _
    rw [ih]
    unfold purge_diri
    cases inst with
    | false => simp [files_fold_index]
    | true =>
      simp only [if_true]
      rw [files_fold_index]
      simp only [if_true, ownedKeys, List.flatMap_cons]
      rw [List.foldl_append]

theorem purge_pkg_stats (p : Bool) (disk : Key → Option Nat) (inst : Bool)
    (dirs : List PDiri) (s : PurgeSt) :
    (apk_db_purge_pkg p disk inst dirs s).stats
      = if inst then s.stats - (ownedKeys dirs).length else s.stats := by
  induction dirs generalizing s with
  | nil => cases inst <;> simp [apk_db_purge_pkg, ownedKeys]
  | cons d ds ih =>
    show (apk_db_purge_pkg p disk inst ds (purge_diri p disk inst d s)).stats = _
    rw [ih]
    unfold purge_diri
    cases inst with
    | false => simp [files_fold_stats]
    | true =>
      simp only [if_true]
      rw [files_fold_stats]
      simp only [if_true, ownedKeys, List.flatMap_cons, List.length_append, List.length_map]
      omega

theorem mem_fileAction_iff {p : Bool} {disk : Key → Option Nat} {inst : Bool}
    {prot : ProtectMode} {dn : Str} {f : PFile} {x : Key × FsCtrl} :
    x ∈ fileAction p disk inst prot dn f ↔
      fileIssue p disk inst prot dn f = true ∧
        x = ((dn, f.name), if inst then FsCtrl.delete else FsCtrl.cancel) := by
  unfold fileAction
  split <;> simp_all

theorem mem_of_mem_foldl_erase (ks : List Key) (idx : List Key) (x : Key)
    (h : x ∈ ks.foldl List.erase idx) : x ∈ idx := by
  induction ks generalizing idx with
  | nil => simpa using h
  | cons k ks ih =>
    simp only [List.foldl_cons] at h
    exact List.mem_of_mem_erase (ih _ h)

theorem not_mem_foldl_erase (ks : List Key) (idx : List Key) (k : Key)
    (hN : idx.Nodup) (hk : k ∈ ks) : k ∉ ks.foldl List.erase idx := by
  induction ks generalizing idx with
  | nil => simp at hk
  | cons a ks ih =>
    simp only [List.foldl_cons]
    rcases List.mem_cons.mp hk with h | h
    · subst h
      intro hmem
      have := mem_of_mem_foldl_erase ks _ _ hmem
      exact (hN.mem_erase_iff.mp this).1 rfl
    · exact ih _ (hN.erase a) h

end Purge

/-- C5: purging an installed package.  A file in a protected directory
whose on-disk content fails the audit is not deleted from the filesystem
unless `APK_PURGE` is set; with `APK_PURGE` the delete is issued even
then; and regardless, every owned key is removed from the global file
index and the installed-file counter drops by the number of owned files. -/
theorem C5_purge_pkg (purgeFlag : Bool) (disk : Purge.Key → Option Nat)
    (dirs : List Purge.PDiri) (s : Purge.PurgeSt) :
    (∀ k : Purge.Key, purgeFlag = false → s.actions = [] →
      (∀ d ∈ dirs, ∀ f ∈ d.files, (d.dirname, f.name) = k →
        Apk.apk_protect_mode_none d.protect = false ∧
          Apk.apk_db_audit_file (disk k) (Option.some ⟨f.csum⟩) = true) →
      (k, Apk.FsCtrl.delete) ∉ (Purge.apk_db_purge_pkg purgeFlag disk true dirs s).actions)
    ∧ (purgeFlag = true → ∀ d ∈ dirs, ∀ f ∈ d.files,
        ((d.dirname, f.name), Apk.FsCtrl.delete)
          ∈ (Purge.apk_db_purge_pkg purgeFlag disk true dirs s).actions)
    ∧ (s.index.Nodup → ∀ k ∈ Purge.ownedKeys dirs,
        k ∉ (Purge.apk_db_purge_pkg purgeFlag disk true dirs s).index)
    ∧ ((Purge.ownedKeys dirs).length ≤ s.stats →
        (Purge.apk_db_purge_pkg purgeFlag disk true dirs s).stats
            + (Purge.ownedKeys dirs).length = s.stats) := by
  refine ⟨?_, ?_, ?_, ?_⟩
  · intro k hpf hact hown hmem
    rw [Purge.purge_pkg_actions, hact, List.nil_append] at hmem
    unfold Purge.purgeActions at hmem
    rw [List.mem_flatMap] at hmem
    obtain ⟨d, hd, hmem⟩ := hmem
    rw [List.mem_flatMap] at hmem
    obtain ⟨f, hf, hmem⟩ := hmem
    rw [Purge.mem_fileAction_iff] at hmem
    obtain ⟨hiss, heq⟩ := hmem
    have hk : (d.dirname, f.name) = k := by
      have := congrArg Prod.fst heq
      simpa using this.symm
    obtain ⟨hprot, haud⟩ := hown d hd f hf hk
    subst hk
    unfold Purge.fileIssue at hiss
    simp [hprot, hpf, haud] at hiss
  · intro hpf d hd f hf
    rw [Purge.purge_pkg_actions]
    apply List.mem_append_right
    unfold Purge.purgeActions
    rw [List.mem_flatMap]
    refine ⟨d, hd, ?_⟩
    rw [List.mem_flatMap]
    refine ⟨f, hf, ?_⟩
    rw [Purge.mem_fileAction_iff]
    constructor
    · unfold Purge.fileIssue
      simp [hpf]
    · rfl
  · intro hN k hk
    rw [Purge.purge_pkg_index]
    simp only [if_true]
    exact Purge.not_mem_foldl_erase _ _ _ hN hk
  · intro hle
    rw [Purge.purge_pkg_stats]
    simp only [if_true]
    omega

/-- C5 witness: with the empty action trace, a protected modified file is
not deleted; under `APK_PURGE` it is; the key leaves the index and the
counter drops from 1 to 0. -/
theorem C5_witness :
    ((['e'], ['f']), Apk.FsCtrl.delete)
        ∉ (Purge.apk_db_purge_pkg false (fun _ => Option.some 5) true
            [⟨['e'], Apk.ProtectMode.changed, [⟨['f'], Option.some 6⟩]⟩]
            ⟨[(['e'], ['f'])], 1, []⟩).actions
    ∧ ((['e'], ['f']), Apk.FsCtrl.delete)
        ∈ (Purge.apk_db_purge_pkg true (fun _ => Option.some 5) true
            [⟨['e'], Apk.ProtectMode.changed, [⟨['f'], Option.some 6⟩]⟩]
            ⟨[(['e'], ['f'])], 1, []⟩).actions
    ∧ (['e'], ['f'])
        ∉ (Purge.apk_db_purge_pkg false (fun _ => Option.some 5) true
            [⟨['e'], Apk.ProtectMode.changed, [⟨['f'], Option.some 6⟩]⟩]
            ⟨[(['e'], ['f'])], 1, []⟩).index
    ∧ (Purge.apk_db_purge_pkg false (fun _ => Option.some 5) true
          [⟨['e'], Apk.ProtectMode.changed, [⟨['f'], Option.some 6⟩]⟩]
          ⟨[(['e'], ['f'])], 1, []⟩).stats + 1 = 1 := by
  refine ⟨?_, ?_, ?_, ?_⟩
  · exact (C5_purge_pkg false (fun _ => Option.some 5)
      [⟨['e'], Apk.ProtectMode.changed, [⟨['f'], Option.some 6⟩]⟩]
      ⟨[(['e'], ['f'])], 1, []⟩).1 (['e'], ['f']) rfl rfl
      (by
        intro d hd f hf hk
        simp only [List.mem_singleton] at hd
        subst hd
        simp only [List.mem_singleton] at hf
        subst hf
        exact ⟨rfl, by decide⟩)
  · exact (C5_purge_pkg true (fun _ => Option.some 5)
      [⟨['e'], Apk.ProtectMode.changed, [⟨['f'], Option.some 6⟩]⟩]
      ⟨[(['e'], ['f'])], 1, []⟩).2.1 rfl
      ⟨['e'], Apk.ProtectMode.changed, [⟨['f'], Option.some 6⟩]⟩ (by simp)
      ⟨['f'], Option.some 6⟩ (by simp)
  · exact (C5_purge_pkg false (fun _ => Option.some 5)
      [⟨['e'], Apk.ProtectMode.changed, [⟨['f'], Option.some 6⟩]⟩]
      ⟨[(['e'], ['f'])], 1, []⟩).2.2.1 (by simp)
      (['e'], ['f']) (by simp [Purge.ownedKeys])
  · exact (C5_purge_pkg false (fun _ => Option.some 5)
      [⟨['e'], Apk.ProtectMode.changed, [⟨['f'], Option.some 6⟩]⟩]
      ⟨[(['e'], ['f'])], 1, []⟩).2.2.2 (by simp [Purge.ownedKeys])

namespace Fdb

theorem write_file_canonical (f : DFile) :
    write_file f =
      [['R', ':'] ++ f.name] ++
      optLine (f.acl ≠ apk_default_acl_file) (['a', ':'] ++ push_db_acl f.acl) ++
      optLine f.csum.isSome (['Z', ':'] ++ push_csum (f.csum.getD ⟨0, []⟩)) := by
  unfold write_file optLine
  cases hc : f.csum <;> by_cases ha : f.acl = apk_default_acl_file <;> simp [ha, hc]

theorem write_diri_canonical (d : Diri) :
    write_diri d =
      [['F', ':'] ++ d.dirname] ++
      optLine (d.acl ≠ apk_default_acl_dir) (['M', ':'] ++ push_db_acl d.acl) ++
      (d.files.flatMap fun f =>
        [['R', ':'] ++ f.name] ++
        optLine (f.acl ≠ apk_default_acl_file) (['a', ':'] ++ push_db_acl f.acl) ++
        optLine f.csum.isSome (['Z', ':'] ++ push_csum (f.csum.getD ⟨0, []⟩))) := by
  unfold write_diri
  rw [funext write_file_canonical]
  unfold optLine
  by_cases ha : d.acl = apk_default_acl_dir <;> simp [ha]

end Fdb

/-- C8: the installed-record writer emits exactly the canonical layout
the spec describes — index header; `r:`, `q:`, `s:`, `f:` each present
only when non-default; per dir instance an `F:` line, an `M:` line only
when the ACL differs from the default `0755,0,0`, per file an `R:` line,
an `a:` line only when the ACL differs from `0644,0,0` and a `Z:` line
only when a checksum is present; and a terminating blank line. -/
theorem C8_canonical_order (tags : List Apk.Str) (r : Fdb.Record) :
    Fdb.apk_db_fdb_write tags r = Fdb.spec_canonical_record tags r := by
  unfold Fdb.apk_db_fdb_write Fdb.spec_canonical_record
  rw [funext Fdb.write_diri_canonical]
  by_cases h1 : r.replaces = [] <;>
    by_cases h2 : r.replaces_priority = 0 <;>
      by_cases h3 : r.repository_tag = 0 <;>
        simp [h1, h2, h3, Fdb.optLine]

namespace Fdb

theorem digitChar_toNat {d : Nat} (h : d < 10) : (digitChar d).toNat = 48 + d := by
  interval_cases d <;> rfl

theorem isBaseDigit_digitChar {base d : Nat} (hd : d < base) (hb : base ≤ 10) :
    isBaseDigit base (digitChar d) = true := by
  have h10 : d < 10 := lt_of_lt_of_le hd hb
  unfold isBaseDigit
  rw [digitChar_toNat h10]
  simp
  omega

theorem pull_uint_digits {base : Nat} (hb : base ≤ 10) :
    ∀ (ds : List Nat) (acc : Nat) (rest : Apk.Str),
      (∀ d ∈ ds, d < base) → headNotDigit base rest →
      pull_uint base acc (ds.map digitChar ++ rest)
        = (ds.foldl (fun a d => a * base + d) acc, rest) := by
  intro ds
  induction ds with
  | nil =>
    intro acc rest _ hrest
    cases rest with
    | nil => rfl
    | cons c cs =>
      have := hrest c rfl
      simp [pull_uint, this]
  | cons d ds ih =>
    intro acc rest hlt hrest
    have hd : d < base := hlt d (List.mem_cons_self d ds)
    have h10 : d < 10 := lt_of_lt_of_le hd hb
    simp only [List.map_cons, List.cons_append, pull_uint]
    rw [if_pos (isBaseDigit_digitChar hd hb)]
    rw [digitChar_toNat h10]
    have : 48 + d - 48 = d := by omega
    rw [this]
    exact ih (acc * base + d) rest (fun x hx => hlt x (List.mem_cons_of_mem d hx)) hrest

theorem foldl_digits (base : Nat) :
    ∀ (l : List Nat) (acc : Nat),
      (l.reverse).foldl (fun a d => a * base + d) acc
        = acc * base ^ l.length + Nat.ofDigits base l := by
  intro l
  induction l with
  | nil => intro acc; simp [Nat.ofDigits]
  | cons d l ih =>
    intro acc
    simp only [List.reverse_cons, List.foldl_append, List.foldl_cons, List.foldl_nil,
      List.length_cons]
    rw [ih]
    rw [Nat.ofDigits_cons]
    ring

theorem pull_push_uint {base : Nat} (hb2 : 2 ≤ base) (hb10 : base ≤ 10)
    (n : Nat) (rest : Apk.Str) (hrest : headNotDigit base rest) :
    pull_uint base 0 (push_uint base n ++ rest) = (n, rest) := by
  unfold push_uint
  by_cases hn : n = 0
  · subst hn
    rw [if_pos rfl]
    have h := pull_uint_digits hb10 [0] 0 rest (by simp; omega) hrest
    simpa using h
  · rw [if_neg hn]
    have hlt : ∀ d ∈ (Nat.digits base n).reverse, d < base := by
      intro d hd
      rw [List.mem_reverse] at hd
      exact Nat.digits_lt_base (by omega) hd
    rw [pull_uint_digits hb10 _ 0 rest hlt hrest]
    rw [foldl_digits]
    simp [Nat.ofDigits_digits]

theorem hexVal_hexChar {v : Nat} (h : v < 16) : hexVal (hexChar v) = Option.some v := by
  interval_cases v <;> decide

theorem pullHexByte_hexByte {b : Nat} (hb : b < 256) (rest : Apk.Str) :
    pullHexByte (hexByte b ++ rest) = Option.some (b, rest) := by
  unfold hexByte pullHexByte
  simp only [List.cons_append, List.nil_append]
  rw [hexVal_hexChar (by omega), hexVal_hexChar (by omega)]
  simp
  omega

theorem pullHexBytes_flat :
    ∀ (bs : List Nat) (rest : Apk.Str), (∀ b ∈ bs, b < 256) →
      pullHexBytes bs.length (bs.flatMap hexByte ++ rest) = Option.some (bs, rest) := by
  intro bs
  induction bs with
  | nil => intro rest _; rfl
  | cons b bs ih =>
    intro rest hlt
    have hb := hlt b (List.mem_cons_self b bs)
    rw [List.flatMap_cons, List.append_assoc]
    simp [pullHexBytes, pullHexByte_hexByte hb,
      ih rest (fun x hx => hlt x (List.mem_cons_of_mem b hx))]

theorem pull_push_csum {c : Csum} (hc : ValidCsum c) (rest : Apk.Str) :
    pull_csum (push_csum c ++ rest) = Option.some (c, rest) := by
  obtain ⟨hlen, hpos, hlt, hbytes⟩ := hc
  unfold push_csum pull_csum
  rw [List.append_assoc]
  have hfl : pullHexBytes c.ctype (c.data.flatMap hexByte ++ rest)
      = Option.some (c.data, rest) := by
    rw [hlen]
    exact pullHexBytes_flat c.data rest hbytes
  have hne : ¬ c.ctype = 0 := by omega
  simp [pullHexByte_hexByte hlt, hfl, hne]

theorem isBaseDigit_colon (base : Nat) (hb : base ≤ 10) : isBaseDigit base ':' = false := by
  unfold isBaseDigit
  simp
  omega

theorem headNotDigit_colon {base : Nat} (hb : base ≤ 10) (t : Apk.Str) :
    headNotDigit base (':' :: t) := by
  intro c hc
  simp only [List.head?, Option.some.injEq] at hc
  subst hc
  exact isBaseDigit_colon base hb

theorem headNotDigit_nil (base : Nat) : headNotDigit base [] := by
  intro c hc
  simp at hc

theorem parse_push_acl {a : Acl} (hva : ValidAcl a) :
    parse_acl (push_db_acl a) = Option.some a := by
  obtain ⟨m, u, g, x⟩ := a
  unfold push_db_acl parse_acl
  simp only [List.append_assoc, List.cons_append, List.singleton_append, List.nil_append]
  cases x with
  | none =>
    simp only [List.append_nil]
    rw [pull_push_uint (by omega) (by omega) u _ (headNotDigit_colon (by omega) _)]
    simp only []
    rw [pull_push_uint (by omega) (by omega) g _ (headNotDigit_colon (by omega) _)]
    simp only []
    rw [show push_uint 8 m = push_uint 8 m ++ [] from (List.append_nil _).symm]
    rw [pull_push_uint (by omega) (by omega) m _ (headNotDigit_nil 8)]
  | some c =>
    unfold ValidAcl at hva
    simp only [] at hva
    rw [pull_push_uint (by omega) (by omega) u _ (headNotDigit_colon (by omega) _)]
    simp only []
    rw [pull_push_uint (by omega) (by omega) g _ (headNotDigit_colon (by omega) _)]
    simp only []
    rw [pull_push_uint (by omega) (by omega) m _ (headNotDigit_colon (by omega) _)]
    simp only []
    rw [show push_csum c = push_csum c ++ [] from (List.append_nil _).symm]
    rw [pull_push_csum hva []]

end Fdb

namespace Fdb

theorem pullDepsGo_append {a : Apk.Str} (ha : ' ' ∉ a) :
    ∀ (cur t : Apk.Str), pullDepsGo cur (a ++ t) = pullDepsGo (cur ++ a) t := by
  induction a with
  | nil => intro cur t; simp [pullDepsGo]
  | cons c cs ih =>
    intro cur t
    have hc : ¬ c = ' ' := fun h => ha (h ▸ List.mem_cons_self c cs)
    have hcs : ' ' ∉ cs := fun h => ha (List.mem_cons_of_mem c h)
    simp only [List.cons_append, pullDepsGo, if_neg hc, List.append_eq]
    rw [ih hcs]
    simp

theorem pull_push_deps :
    ∀ (deps : List Apk.Str), deps ≠ [] → (∀ d ∈ deps, ' ' ∉ d) →
      pull_deps (push_deps deps) = deps := by
  intro deps
  induction deps with
  | nil => intro h; exact absurd rfl h
  | cons d ds ih =>
    intro _ hsp
    have hd : ' ' ∉ d := hsp d (List.mem_cons_self d ds)
    cases ds with
    | nil =>
      unfold pull_deps push_deps
      rw [show d = d ++ [] from (List.append_nil d).symm]
      rw [pullDepsGo_append hd]
      simp [pullDepsGo]
    | cons d2 ds2 =>
      unfold pull_deps push_deps
      rw [List.append_assoc]
      rw [pullDepsGo_append hd]
      have := ih (by simp) (fun x hx => hsp x (List.mem_cons_of_mem d hx))
      unfold pull_deps at this
      simp [pullDepsGo, this]

theorem findTagFrom_found {plain : Apk.Str} :
    ∀ (ts : List Apk.Str) (i j : Nat), ts[j]? = Option.some plain →
      (∀ l < j, ts[l]? ≠ Option.some plain) →
      findTagFrom plain i ts = Option.some (i + j) := by
  intro ts
  induction ts with
  | nil => intro i j hj _; simp at hj
  | cons t ts ih =>
    intro i j hj huni
    cases j with
    | zero =>
      simp only [List.getElem?_cons_zero, Option.some.injEq] at hj
      subst hj
      simp [findTagFrom]
    | succ j =>
      have hne : ¬ t = plain := by
        intro h
        exact huni 0 (Nat.succ_pos j) (by simp [h])
      simp only [findTagFrom, if_neg hne]
      rw [ih (i + 1) j (by simpa using hj)
        (fun l hl => by simpa using huni (l + 1) (Nat.succ_lt_succ hl))]
      congr 1
      omega

theorem get_tag_id_roundtrip {tags : List Apk.Str} {t : Nat}
    (hv : ValidTags tags) (h1 : 1 ≤ t) (h2 : t < tags.length) :
    get_tag_id tags (tags.getD t []) = (tags, t) := by
  obtain ⟨hnd, hall⟩ := hv
  have htv : tags[t]? = Option.some (tags.getD t []) := by
    rw [List.getD_eq_getElem?_getD]
    cases h : tags[t]? with
    | none =>
      rw [List.getElem?_eq_none_iff] at h
      omega
    | some v => simp
  have hat : (tags.getD t []).head? ≠ Option.some '@' := by
    have hmem : tags.getD t [] ∈ tags := by
      rw [List.getD_eq_getElem?_getD]
      cases h : tags[t]? with
      | none =>
        rw [List.getElem?_eq_none_iff] at h
        omega
      | some v =>
        simp only [Option.getD_some]
        exact List.getElem?_mem h
    exact (hall _ hmem).2
  unfold get_tag_id
  rw [if_neg hat]
  have hfind : findTagFrom (tags.getD t []) 1 (tags.drop 1) = Option.some t := by
    have hdrop : (tags.drop 1)[t - 1]? = Option.some (tags.getD t []) := by
      rw [List.getElem?_drop]
      have : 1 + (t - 1) = t := by omega
      rw [this]
      exact htv
    have huni : ∀ l < t - 1, (tags.drop 1)[l]? ≠ Option.some (tags.getD t []) := by
      intro l hl hcontra
      rw [List.getElem?_drop] at hcontra
      have hlt : 1 + l < tags.length := by
        by_contra hge
        rw [List.getElem?_eq_none_iff.mpr (by omega)] at hcontra
        simp at hcontra
      have htv2 : tags[t]? = Option.some (tags.getD t []) := htv
      rw [List.getElem?_eq_getElem hlt] at hcontra
      rw [List.getElem?_eq_getElem h2] at htv2
      simp only [Option.some.injEq] at hcontra htv2
      have heq : tags[1 + l] = tags[t] := by rw [hcontra, htv2]
      have := (List.Nodup.getElem_inj_iff hnd).mp heq
      omega
    have := findTagFrom_found (tags.drop 1) 1 (t - 1) hdrop huni
    rw [this]
    congr 1
    omega
  simp only [hfind]

theorem parseFlags_flagStr (r : Record) (rs : RState)
    (h1 : rs.broken_files = false) (h2 : rs.broken_script = false)
    (h3 : rs.broken_xattr = false) (h4 : rs.sha256_160 = false) :
    parseFlags rs (flagStr r) = Option.some { rs with
      broken_files := r.broken_files, broken_script := r.broken_script,
      broken_xattr := r.broken_xattr, sha256_160 := r.sha256_160 } := by
  obtain ⟨pn, v, ik, rep, rp, rt, bf, bs, bx, sh, dirs, cd⟩ := rs
  simp only [] at h1 h2 h3 h4
  subst h1; subst h2; subst h3; subst h4
  unfold flagStr
  cases hbf : r.broken_files <;> cases hbs : r.broken_script <;>
    cases hbx : r.broken_xattr <;> cases hsh : r.sha256_160 <;>
      simp [parseFlags]

theorem readAll_append (xs ys : List Apk.Str) :
    ∀ s : RdSt, readAll s (xs ++ ys)
      = match readAll s xs with
        | Option.some s2 => readAll s2 ys
        | Option.none => Option.none := by
  induction xs with
  | nil => intro s; rfl
  | cons x xs ih =>
    intro s
    simp only [List.cons_append, readAll]
    cases readLine s x with
    | none => rfl
    | some s2 => exact ih s2

theorem listUpd_append_last (g : α → α) (l : List α) (x : α) :
    listUpd g l.length (l ++ [x]) = l ++ [g x] := by
  induction l with
  | nil => rfl
  | cons y ys ih => simp [listUpd, ih]

theorem getD_append_last (l : List α) (x d : α) :
    (l ++ [x]).getD l.length d = x := by
  induction l with
  | nil => rfl
  | cons y ys ih => simpa using ih

theorem findDiriIdx_none {dn : Apk.Str} :
    ∀ (ds : List Diri) (i : Nat), (∀ d ∈ ds, d.dirname ≠ dn) →
      findDiriIdx dn i ds = Option.none := by
  intro ds
  induction ds with
  | nil => intro i _; rfl
  | cons d ds ih =>
    intro i h
    have := h d (List.mem_cons_self d ds)
    simp only [findDiriIdx, if_neg this]
    exact ih (i + 1) (fun x hx => h x (List.mem_cons_of_mem d hx))

theorem lookupKey_append (k : Apk.Str × Apk.Str)
    (l1 l2 : List ((Apk.Str × Apk.Str) × FileRef)) :
    lookupKey k (l1 ++ l2)
      = match lookupKey k l1 with
        | Option.some v => Option.some v
        | Option.none => lookupKey k l2 := by
  induction l1 with
  | nil => rfl
  | cons kv l1 ih =>
    simp only [List.cons_append, lookupKey]
    by_cases h : kv.1 = k
    · simp [h]
    · simp only [if_neg h]
      exact ih

theorem lookupKey_none_of_all_ne (k : Apk.Str × Apk.Str) :
    ∀ (l : List ((Apk.Str × Apk.Str) × FileRef)), (∀ kv ∈ l, kv.1 ≠ k) →
      lookupKey k l = Option.none := by
  intro l
  induction l with
  | nil => intro _; rfl
  | cons kv l ih =>
    intro h
    simp only [lookupKey, if_neg (h kv (List.mem_cons_self kv l))]
    exact ih (fun x hx => h x (List.mem_cons_of_mem kv hx))

theorem fiForFiles_key_dirname {n di : Nat} {dn : Apk.Str} :
    ∀ (fj : Nat) (fs : List DFile) (kv : (Apk.Str × Apk.Str) × FileRef),
      kv ∈ fiForFiles n di dn fj fs → kv.1.1 = dn := by
  intro fj fs
  induction fs generalizing fj with
  | nil => intro kv h; simp [fiForFiles] at h
  | cons f fs ih =>
    intro kv h
    simp only [fiForFiles, List.mem_cons] at h
    rcases h with h | h
    · rw [h]
    · exact ih (fj + 1) kv h

theorem fiForFiles_keys {n di : Nat} {dn : Apk.Str} :
    ∀ (fj : Nat) (fs : List DFile) (kv : (Apk.Str × Apk.Str) × FileRef),
      kv ∈ fiForFiles n di dn fj fs → ∃ f ∈ fs, kv.1 = (dn, f.name) := by
  intro fj fs
  induction fs generalizing fj with
  | nil => intro kv h; simp [fiForFiles] at h
  | cons f fs ih =>
    intro kv h
    simp only [fiForFiles, List.mem_cons] at h
    rcases h with h | h
    · exact ⟨f, List.mem_cons_self f fs, by rw [h]⟩
    · obtain ⟨f2, hf2, hk⟩ := ih (fj + 1) kv h
      exact ⟨f2, List.mem_cons_of_mem f hf2, hk⟩

theorem fiForDirs_key_dirname {n : Nat} :
    ∀ (di : Nat) (ds : List Diri) (kv : (Apk.Str × Apk.Str) × FileRef),
      kv ∈ fiForDirs n di ds → ∃ d ∈ ds, kv.1.1 = d.dirname := by
  intro di ds
  induction ds generalizing di with
  | nil => intro kv h; simp [fiForDirs] at h
  | cons d ds ih =>
    intro kv h
    simp only [fiForDirs, List.mem_append] at h
    rcases h with h | h
    · exact ⟨d, List.mem_cons_self d ds, fiForFiles_key_dirname 0 d.files kv h⟩
    · obtain ⟨d2, hd2, hk⟩ := ih (di + 1) kv h
      exact ⟨d2, List.mem_cons_of_mem d hd2, hk⟩

theorem fiForFiles_append (n di : Nat) (dn : Apk.Str) :
    ∀ (fj : Nat) (fs1 fs2 : List DFile),
      fiForFiles n di dn fj (fs1 ++ fs2)
        = fiForFiles n di dn fj fs1 ++ fiForFiles n di dn (fj + fs1.length) fs2 := by
  intro fj fs1
  induction fs1 generalizing fj with
  | nil => intro fs2; simp [fiForFiles]
  | cons f fs1 ih =>
    intro fs2
    simp only [List.cons_append, fiForFiles, List.length_cons, List.append_eq]
    rw [ih (fj + 1)]
    have harith : fj + 1 + fs1.length = fj + (fs1.length + 1) := by omega
    rw [harith]

theorem fiForDirs_append (n : Nat) :
    ∀ (di : Nat) (ds1 ds2 : List Diri),
      fiForDirs n di (ds1 ++ ds2)
        = fiForDirs n di ds1 ++ fiForDirs n (di + ds1.length) ds2 := by
  intro di ds1
  induction ds1 generalizing di with
  | nil => intro ds2; simp [fiForDirs]
  | cons d ds1 ih =>
    intro ds2
    simp only [List.cons_append, fiForDirs, List.length_cons, List.append_eq]
    rw [ih (di + 1)]
    rw [List.append_assoc]
    have harith : di + 1 + ds1.length = di + (ds1.length + 1) := by omega
    rw [harith]

end Fdb

namespace Fdb

theorem read_files (tags : List Apk.Str) (out : List Record)
    (dd : List Diri) (dn : Apk.Str) (dacl : Acl)
    (pn v : Apk.Str) (rep : List Apk.Str) (rp rt : Nat) (bf bsc bx sh : Bool) :
    ∀ (fs done : List DFile) (cf : Option FileRef)
      (fi0 : List ((Apk.Str × Apk.Str) × FileRef)),
      (∀ f ∈ fs, ValidFile f) →
      (fs.map DFile.name).Nodup →
      (∀ f ∈ fs, lookupKey (dn, f.name) fi0 = Option.none) →
      ∃ cf2,
        readAll ⟨tags, out, Option.some ⟨Option.some pn, Option.some v, true, rep, rp, rt,
            bf, bsc, bx, sh, dd ++ [⟨dn, dacl, done⟩], Option.some dd.length⟩, cf, fi0⟩
            (fs.flatMap write_file)
          = Option.some ⟨tags, out, Option.some ⟨Option.some pn, Option.some v, true, rep, rp, rt,
              bf, bsc, bx, sh, dd ++ [⟨dn, dacl, done ++ fs⟩], Option.some dd.length⟩,
              cf2, fi0 ++ fiForFiles out.length dd.length dn done.length fs⟩ := by
  intro fs
  induction fs with
  | nil =>
    intro done cf fi0 _ _ _
    exact ⟨cf, by simp [readAll, fiForFiles]⟩
  | cons f fs ih =>
    intro done cf fi0 hval hnd hlk
    obtain ⟨fnm, facl, fcs⟩ := f
    obtain ⟨hnl, hvacl, hvcs⟩ := hval _ (List.mem_cons_self _ fs)
    have hlook : lookupKey (dn, fnm) fi0 = Option.none :=
      hlk _ (List.mem_cons_self _ fs)
    rw [List.flatMap_cons, readAll_append]
    have hR : readLine ⟨tags, out, Option.some ⟨Option.some pn, Option.some v, true, rep, rp, rt,
        bf, bsc, bx, sh, dd ++ [⟨dn, dacl, done⟩], Option.some dd.length⟩, cf, fi0⟩
        ('R' :: ':' :: fnm)
        = Option.some ⟨tags, out, Option.some ⟨Option.some pn, Option.some v, true, rep, rp, rt,
            bf, bsc, bx, sh,
            dd ++ [⟨dn, dacl, done ++ [⟨fnm, apk_default_acl_file, Option.none⟩]⟩],
            Option.some dd.length⟩,
            Option.some (out.length, dd.length, done.length),
            fi0 ++ [((dn, fnm), (out.length, dd.length, done.length))]⟩ := by
      simp only [readLine, reduceIte]
      unfold fieldStep
      simp [getD_append_last, hlook, listUpd_append_last]
    have hA : ∀ (dirsNow : List DFile) (acl2 : Acl) (cfile : DFile),
        parse_acl (push_db_acl acl2) = Option.some acl2 →
        readLine ⟨tags, out, Option.some ⟨Option.some pn, Option.some v, true, rep, rp, rt,
            bf, bsc, bx, sh, dd ++ [⟨dn, dacl, dirsNow ++ [cfile]⟩], Option.some dd.length⟩,
            Option.some (out.length, dd.length, dirsNow.length), fi0 ++ [((dn, fnm), (out.length, dd.length, done.length))]⟩
          ('a' :: ':' :: push_db_acl acl2)
          = Option.some ⟨tags, out, Option.some ⟨Option.some pn, Option.some v, true, rep, rp, rt,
              bf, bsc, bx, sh, dd ++ [⟨dn, dacl, dirsNow ++ [{ cfile with acl := acl2 }]⟩],
              Option.some dd.length⟩,
              Option.some (out.length, dd.length, dirsNow.length),
              fi0 ++ [((dn, fnm), (out.length, dd.length, done.length))]⟩ := by
      intro dirsNow acl2 cfile hparse
      simp only [readLine, reduceIte]
      unfold fieldStep
      simp [hparse, updFileAt, updDFileIn, listUpd_append_last]
    have hZ : ∀ (dirsNow : List DFile) (c : Csum) (cfile : DFile),
        pull_csum (push_csum c) = Option.some (c, []) →
        readLine ⟨tags, out, Option.some ⟨Option.some pn, Option.some v, true, rep, rp, rt,
            bf, bsc, bx, sh, dd ++ [⟨dn, dacl, dirsNow ++ [cfile]⟩], Option.some dd.length⟩,
            Option.some (out.length, dd.length, dirsNow.length), fi0 ++ [((dn, fnm), (out.length, dd.length, done.length))]⟩
          ('Z' :: ':' :: push_csum c)
          = Option.some ⟨tags, out, Option.some ⟨Option.some pn, Option.some v, true, rep, rp, rt,
              bf, bsc, bx, sh, dd ++ [⟨dn, dacl, dirsNow ++ [{ cfile with csum := Option.some c }]⟩],
              Option.some dd.length⟩,
              Option.some (out.length, dd.length, dirsNow.length),
              fi0 ++ [((dn, fnm), (out.length, dd.length, done.length))]⟩ := by
      intro dirsNow c cfile hpc
      simp only [readLine, reduceIte]
      unfold fieldStep
      simp [hpc, updFileAt, updDFileIn, listUpd_append_last]
    have hmid : readAll ⟨tags, out, Option.some ⟨Option.some pn, Option.some v, true, rep, rp, rt,
        bf, bsc, bx, sh, dd ++ [⟨dn, dacl, done⟩], Option.some dd.length⟩, cf, fi0⟩
        (write_file ⟨fnm, facl, fcs⟩)
        = Option.some ⟨tags, out, Option.some ⟨Option.some pn, Option.some v, true, rep, rp, rt,
            bf, bsc, bx, sh, dd ++ [⟨dn, dacl, done ++ [⟨fnm, facl, fcs⟩]⟩], Option.some dd.length⟩,
            Option.some (out.length, dd.length, done.length),
            fi0 ++ [((dn, fnm), (out.length, dd.length, done.length))]⟩ := by
      by_cases ha : facl = apk_default_acl_file
      · subst ha
        cases fcs with
        | none =>
          have hlines : write_file ⟨fnm, apk_default_acl_file, Option.none⟩
              = ['R' :: ':' :: fnm] := by
            simp [write_file]
          rw [hlines]
          simp only [readAll, hR]
        | some c =>
          have hvc : ValidCsum c := hvcs c rfl
          have hpc : pull_csum (push_csum c) = Option.some (c, []) := by
            have := pull_push_csum hvc ([] : Apk.Str)
            simpa using this
          have hlines : write_file ⟨fnm, apk_default_acl_file, Option.some c⟩
              = ['R' :: ':' :: fnm, 'Z' :: ':' :: push_csum c] := by
            simp [write_file]
          rw [hlines]
          simp only [readAll, hR, hZ done c ⟨fnm, apk_default_acl_file, Option.none⟩ hpc]
      · cases fcs with
        | none =>
          have hlines : write_file ⟨fnm, facl, Option.none⟩
              = ['R' :: ':' :: fnm, 'a' :: ':' :: push_db_acl facl] := by
            simp [write_file, ha]
          rw [hlines]
          simp only [readAll, hR, hA done facl ⟨fnm, apk_default_acl_file, Option.none⟩
            (parse_push_acl hvacl)]
        | some c =>
          have hvc : ValidCsum c := hvcs c rfl
          have hpc : pull_csum (push_csum c) = Option.some (c, []) := by
            have := pull_push_csum hvc ([] : Apk.Str)
            simpa using this
          have hlines : write_file ⟨fnm, facl, Option.some c⟩
              = ['R' :: ':' :: fnm, 'a' :: ':' :: push_db_acl facl,
                 'Z' :: ':' :: push_csum c] := by
            simp [write_file, ha]
          rw [hlines]
          simp only [readAll, hR, hA done facl ⟨fnm, apk_default_acl_file, Option.none⟩
            (parse_push_acl hvacl),
            hZ done c ⟨fnm, facl, Option.none⟩ hpc]
    rw [hmid]
    simp only []
    obtain ⟨cf2, hrest⟩ := ih (done ++ [⟨fnm, facl, fcs⟩])
      (Option.some (out.length, dd.length, done.length))
      (fi0 ++ [((dn, fnm), (out.length, dd.length, done.length))])
      (fun x hx => hval x (List.mem_cons_of_mem _ hx))
      (by simpa using hnd.of_cons)
      (by
        intro f2 hf2
        rw [lookupKey_append]
        rw [hlk f2 (List.mem_cons_of_mem _ hf2)]
        have hne : fnm ≠ f2.name := by
          intro h
          rw [List.map_cons, List.nodup_cons] at hnd
          have hmem : f2.name ∈ fs.map DFile.name :=
            List.mem_map_of_mem DFile.name hf2
          exact hnd.1 (by rw [h]; exact hmem)
        simp [lookupKey, hne])
    refine ⟨cf2, ?_⟩
    rw [hrest]
    simp [fiForFiles, List.append_assoc]

end Fdb

namespace Fdb

theorem stripSlash_eq {n : Apk.Str} (h : n.getLast? ≠ Option.some '/') :
    Apk.stripSlash n = n := by
  unfold Apk.stripSlash
  rw [if_neg h]

theorem read_dirs (tags : List Apk.Str) (out : List Record)
    (pn v : Apk.Str) (rep : List Apk.Str) (rp rt : Nat) (bf bsc bx sh : Bool) :
    ∀ (ds dd : List Diri) (b : Bool) (cd : Option Nat) (cf : Option FileRef)
      (fi0 : List ((Apk.Str × Apk.Str) × FileRef)),
      (∀ d ∈ ds, ValidDiri d) →
      ((dd ++ ds).map Diri.dirname).Nodup →
      (∀ d ∈ ds, ∀ f ∈ d.files, lookupKey (d.dirname, f.name) fi0 = Option.none) →
      ∃ b2 cd2 cf2,
        readAll ⟨tags, out, Option.some ⟨Option.some pn, Option.some v, b, rep, rp, rt,
            bf, bsc, bx, sh, dd, cd⟩, cf, fi0⟩
            (ds.flatMap write_diri)
          = Option.some ⟨tags, out, Option.some ⟨Option.some pn, Option.some v, b2, rep, rp, rt,
              bf, bsc, bx, sh, dd ++ ds, cd2⟩, cf2,
              fi0 ++ fiForDirs out.length dd.length ds⟩ := by
  intro ds
  induction ds with
  | nil =>
    intro dd b cd cf fi0 _ _ _
    exact ⟨b, cd, cf, by simp [readAll, fiForDirs]⟩
  | cons d ds ih =>
    intro dd b cd cf fi0 hval hnd hlk
    obtain ⟨ddn, dda, ddf⟩ := d
    obtain ⟨hnl, hnsl, hvacl, hndf, hvfs⟩ := hval _ (List.mem_cons_self _ ds)
    have hddn_notin : ∀ x ∈ dd, x.dirname ≠ ddn := by
      intro x hx hcontra
      rw [List.map_append, List.nodup_append] at hnd
      exact hnd.2.2 (List.mem_map_of_mem Diri.dirname hx) (by simp [hcontra])
    have hfindF : findDiriIdx ddn 0 dd = Option.none := findDiriIdx_none dd 0 hddn_notin
    have hstrip : Apk.stripSlash ddn = ddn := stripSlash_eq hnsl
    rw [List.flatMap_cons, readAll_append]
    have hF : readLine ⟨tags, out, Option.some ⟨Option.some pn, Option.some v, b, rep, rp, rt,
        bf, bsc, bx, sh, dd, cd⟩, cf, fi0⟩ ('F' :: ':' :: ddn)
        = Option.some ⟨tags, out, Option.some ⟨Option.some pn, Option.some v, true, rep, rp, rt,
            bf, bsc, bx, sh, dd ++ [⟨ddn, apk_default_acl_dir, []⟩], Option.some dd.length⟩,
            cf, fi0⟩ := by
      simp only [readLine, reduceIte]
      unfold fieldStep
      simp [hfindF, hstrip]
    have hM : ∀ acl2 : Acl, parse_acl (push_db_acl acl2) = Option.some acl2 →
        readLine ⟨tags, out, Option.some ⟨Option.some pn, Option.some v, true, rep, rp, rt,
            bf, bsc, bx, sh, dd ++ [⟨ddn, apk_default_acl_dir, []⟩], Option.some dd.length⟩,
            cf, fi0⟩ ('M' :: ':' :: push_db_acl acl2)
          = Option.some ⟨tags, out, Option.some ⟨Option.some pn, Option.some v, true, rep, rp, rt,
              bf, bsc, bx, sh, dd ++ [⟨ddn, acl2, []⟩], Option.some dd.length⟩,
              cf, fi0⟩ := by
      intro acl2 hparse
      simp only [readLine, reduceIte]
      unfold fieldStep
      simp [hparse, listUpd_append_last]
    have hdirilines : readAll ⟨tags, out, Option.some ⟨Option.some pn, Option.some v, b, rep,
        rp, rt, bf, bsc, bx, sh, dd, cd⟩, cf, fi0⟩ (write_diri ⟨ddn, dda, ddf⟩)
        = match readAll ⟨tags, out, Option.some ⟨Option.some pn, Option.some v, true, rep, rp, rt,
            bf, bsc, bx, sh, dd ++ [⟨ddn, dda, []⟩], Option.some dd.length⟩, cf, fi0⟩
            (ddf.flatMap write_file) with
          | Option.some s2 => Option.some s2
          | Option.none => Option.none := by
      by_cases ha : dda = apk_default_acl_dir
      · subst ha
        have hlines : write_diri ⟨ddn, apk_default_acl_dir, ddf⟩
            = ('F' :: ':' :: ddn) :: ddf.flatMap write_file := by
          simp [write_diri]
        rw [hlines]
        show (match readLine _ ('F' :: ':' :: ddn) with
          | Option.some s2 => readAll s2 (ddf.flatMap write_file)
          | Option.none => Option.none) = _
        rw [hF]
        simp only []
        cases readAll ⟨tags, out, Option.some ⟨Option.some pn, Option.some v, true, rep, rp, rt,
            bf, bsc, bx, sh, dd ++ [⟨ddn, apk_default_acl_dir, []⟩], Option.some dd.length⟩,
            cf, fi0⟩ (ddf.flatMap write_file) <;> rfl
      · have hlines : write_diri ⟨ddn, dda, ddf⟩
            = ('F' :: ':' :: ddn) :: ('M' :: ':' :: push_db_acl dda) :: ddf.flatMap write_file := by
          simp [write_diri, ha]
        rw [hlines]
        show (match readLine _ ('F' :: ':' :: ddn) with
          | Option.some s2 => readAll s2 (('M' :: ':' :: push_db_acl dda) :: ddf.flatMap write_file)
          | Option.none => Option.none) = _
        rw [hF]
        simp only []
        show (match readLine _ ('M' :: ':' :: push_db_acl dda) with
          | Option.some s2 => readAll s2 (ddf.flatMap write_file)
          | Option.none => Option.none) = _
        rw [hM dda (parse_push_acl hvacl)]
        simp only []
        cases readAll ⟨tags, out, Option.some ⟨Option.some pn, Option.some v, true, rep, rp, rt,
            bf, bsc, bx, sh, dd ++ [⟨ddn, dda, []⟩], Option.some dd.length⟩,
            cf, fi0⟩ (ddf.flatMap write_file) <;> rfl
    rw [hdirilines]
    obtain ⟨cf2, hfiles⟩ := read_files tags out dd ddn dda pn v rep rp rt bf bsc bx sh
      ddf [] cf fi0 hvfs hndf
      (fun f hf => hlk _ (List.mem_cons_self _ ds) f hf)
    simp only [List.nil_append] at hfiles
    rw [hfiles]
    have hlk2 : ∀ d2 ∈ ds, ∀ f2 ∈ d2.files,
        lookupKey (d2.dirname, f2.name)
          (fi0 ++ fiForFiles out.length dd.length ddn 0 ddf) = Option.none := by
      intro d2 hd2 f2 hf2
      rw [lookupKey_append]
      rw [hlk d2 (List.mem_cons_of_mem _ hd2) f2 hf2]
      have hne : d2.dirname ≠ ddn := by
        intro hcontra
        rw [List.map_append, List.map_cons, List.nodup_append] at hnd
        have hcons := hnd.2.1
        rw [List.nodup_cons] at hcons
        apply hcons.1
        have hmem : d2.dirname ∈ ds.map Diri.dirname :=
          List.mem_map_of_mem Diri.dirname hd2
        rw [hcontra] at hmem
        exact hmem
      exact lookupKey_none_of_all_ne _ _ (fun kv hkv hcontra => by
        have hdn := fiForFiles_key_dirname 0 ddf kv hkv
        rw [hcontra] at hdn
        simp at hdn
        exact hne hdn)
    obtain ⟨b2, cd2, cf3, hrest⟩ := ih (dd ++ [⟨ddn, dda, ddf⟩]) true
      (Option.some dd.length) cf2 (fi0 ++ fiForFiles out.length dd.length ddn 0 ddf)
      (fun x hx => hval x (List.mem_cons_of_mem _ hx))
      (by rw [List.append_assoc]; exact hnd)
      hlk2
    refine ⟨b2, cd2, cf3, ?_⟩
    show readAll ⟨tags, out, Option.some ⟨Option.some pn, Option.some v, true, rep, rp, rt,
        bf, bsc, bx, sh, dd ++ [⟨ddn, dda, ddf⟩], Option.some dd.length⟩, cf2,
        fi0 ++ fiForFiles out.length dd.length ddn 0 ddf⟩ (ds.flatMap write_diri) = _
    rw [hrest]
    simp [fiForDirs, List.append_assoc]

end Fdb

namespace Fdb

theorem readAll_cons_step {s s2 : RdSt} {l : Apk.Str} {rest : List Apk.Str}
    (h : readLine s l = Option.some s2) : readAll s (l :: rest) = readAll s2 rest := by
  conv_lhs => rw [readAll]
  rw [h]

theorem readAll_seg_step {s s2 : RdSt} {seg rest : List Apk.Str}
    (h : readAll s seg = Option.some s2) :
    readAll s (seg ++ rest) = readAll s2 rest := by
  rw [readAll_append, h]

theorem meta_seg_r (tags : List Apk.Str) (out : List Record) (cf : Option FileRef)
    (fi0 : List ((Apk.Str × Apk.Str) × FileRef)) (pn v : Apk.Str) (b : Bool)
    (rep0 : List Apk.Str) (rp0 rt0 : Nat) (g1 g2 g3 g4 : Bool)
    (deps : List Apk.Str) (hdeps : ∀ dp ∈ deps, ValidDep dp) (rest : List Apk.Str) :
    readAll ⟨tags, out, Option.some ⟨Option.some pn, Option.some v, b, rep0, rp0, rt0,
        g1, g2, g3, g4, [], Option.none⟩, cf, fi0⟩
        ((if deps ≠ [] then ['r' :: ':' :: push_deps deps] else []) ++ rest)
      = readAll ⟨tags, out, Option.some ⟨Option.some pn, Option.some v,
          (if deps ≠ [] then true else b), (if deps ≠ [] then deps else rep0),
          rp0, rt0, g1, g2, g3, g4, [], Option.none⟩, cf, fi0⟩ rest := by
  by_cases h : deps = []
  · simp [h]
  · have hpd : pull_deps (push_deps deps) = deps :=
      pull_push_deps deps h (fun d hd => (hdeps d hd).2.1)
    rw [if_pos h, if_pos h, if_pos h]
    refine readAll_seg_step ?_
    simp [readAll, readLine, fieldStep, hpd]

theorem meta_seg_q (tags : List Apk.Str) (out : List Record) (cf : Option FileRef)
    (fi0 : List ((Apk.Str × Apk.Str) × FileRef)) (pn v : Apk.Str) (b : Bool)
    (rep0 : List Apk.Str) (rp rt0 : Nat) (g1 g2 g3 g4 : Bool) (rest : List Apk.Str) :
    readAll ⟨tags, out, Option.some ⟨Option.some pn, Option.some v, b, rep0, 0, rt0,
        g1, g2, g3, g4, [], Option.none⟩, cf, fi0⟩
        ((if rp ≠ 0 then ['q' :: ':' :: push_uint 10 rp] else []) ++ rest)
      = readAll ⟨tags, out, Option.some ⟨Option.some pn, Option.some v,
          (if rp ≠ 0 then true else b), rep0, rp, rt0,
          g1, g2, g3, g4, [], Option.none⟩, cf, fi0⟩ rest := by
  by_cases h : rp = 0
  · simp [h]
  · have hq : pull_uint 10 0 (push_uint 10 rp) = (rp, []) := by
      have := @pull_push_uint 10 (by omega) (by omega) rp [] (headNotDigit_nil 10)
      simpa using this
    rw [if_pos h, if_pos h]
    refine readAll_seg_step ?_
    simp [readAll, readLine, fieldStep, hq]

theorem meta_seg_s (tags : List Apk.Str) (out : List Record) (cf : Option FileRef)
    (fi0 : List ((Apk.Str × Apk.Str) × FileRef)) (pn v : Apk.Str) (b : Bool)
    (rep0 : List Apk.Str) (rp0 rt : Nat) (g1 g2 g3 g4 : Bool)
    (hvt : ValidTags tags) (htag : rt < tags.length) (rest : List Apk.Str) :
    readAll ⟨tags, out, Option.some ⟨Option.some pn, Option.some v, b, rep0, rp0, 0,
        g1, g2, g3, g4, [], Option.none⟩, cf, fi0⟩
        ((if rt ≠ 0 then ['s' :: ':' :: tags.getD rt []] else []) ++ rest)
      = readAll ⟨tags, out, Option.some ⟨Option.some pn, Option.some v,
          (if rt ≠ 0 then true else b), rep0, rp0, rt,
          g1, g2, g3, g4, [], Option.none⟩, cf, fi0⟩ rest := by
  by_cases h : rt = 0
  · simp [h]
  · have hs : get_tag_id tags (tags.getD rt []) = (tags, rt) :=
      get_tag_id_roundtrip hvt (by omega) htag
    rw [List.getD_eq_getElem?_getD] at hs
    rw [if_pos h, if_pos h]
    refine readAll_seg_step ?_
    simp [readAll, readLine, fieldStep, hs]

theorem meta_seg_f (tags : List Apk.Str) (out : List Record) (cf : Option FileRef)
    (fi0 : List ((Apk.Str × Apk.Str) × FileRef)) (pn v : Apk.Str) (b : Bool)
    (rep0 : List Apk.Str) (rp0 rt0 : Nat) (r : Record) (rest : List Apk.Str) :
    readAll ⟨tags, out, Option.some ⟨Option.some pn, Option.some v, b, rep0, rp0, rt0,
        false, false, false, false, [], Option.none⟩, cf, fi0⟩
        ((if r.broken_files || r.broken_script || r.broken_xattr || r.sha256_160 then
          ['f' :: ':' :: flagStr r] else []) ++ rest)
      = readAll ⟨tags, out, Option.some ⟨Option.some pn, Option.some v,
          (if r.broken_files || r.broken_script || r.broken_xattr || r.sha256_160 then true else b),
          rep0, rp0, rt0, r.broken_files, r.broken_script, r.broken_xattr, r.sha256_160,
          [], Option.none⟩, cf, fi0⟩ rest := by
  cases hcond : (r.broken_files || r.broken_script || r.broken_xattr || r.sha256_160) with
  | false =>
    have h1 : r.broken_files = false := by
      cases h : r.broken_files <;> simp [h] at hcond ⊢
    have h2 : r.broken_script = false := by
      cases h : r.broken_script <;> simp [h] at hcond ⊢
    have h3 : r.broken_xattr = false := by
      cases h : r.broken_xattr <;> simp [h] at hcond ⊢
    have h4 : r.sha256_160 = false := by
      cases h : r.sha256_160 <;> simp [h] at hcond ⊢
    simp [hcond, h1, h2, h3, h4]
  | true =>
    simp only [hcond, reduceIte]
    refine readAll_seg_step ?_
    have hflags := parseFlags_flagStr r
      ⟨Option.some pn, Option.some v, true, rep0, rp0, rt0,
        false, false, false, false, [], Option.none⟩ rfl rfl rfl rfl
    simp [readAll, readLine, fieldStep, hflags]

end Fdb

/-- C1: writing an installed-package record with the FDB writer and
reading the produced text back yields the identical in-memory record —
the same ordered dir instances, the same ordered files with their ACL
handles and content checksums, and the same replaces list, replaces
priority, repository tag and flag bits — for every valid record (distinct
canonical dir keys, distinct file names per dir, well-formed checksums
and dependency expressions, resolvable tag, newline-free strings). -/
theorem C1_fdb_roundtrip (tags : List Apk.Str) (r : Fdb.Record)
    (hvt : Fdb.ValidTags tags) (hvr : Fdb.ValidRecord tags r) :
    Fdb.apk_db_fdb_read tags (Fdb.apk_db_fdb_write tags r) = Option.some [r] := by
  obtain ⟨pn, v, rep, rp, rt, bf, bsc, bx, sh, dirs⟩ := r
  obtain ⟨hnlp, hnlv, hdeps, htag, hndd, hvds⟩ := hvr
  unfold Fdb.apk_db_fdb_read Fdb.apk_db_fdb_write Fdb.write_index_header
  dsimp only at hnlp hnlv hdeps htag hndd hvds ⊢
  simp only [List.cons_append, List.nil_append, List.append_assoc]
  have hP : Fdb.readLine ⟨tags, [], Option.none, Option.none, []⟩ ('P' :: ':' :: pn)
      = Option.some ⟨tags, [], Option.some ⟨Option.some pn, Option.none, false, [], 0, 0,
          false, false, false, false, [], Option.none⟩, Option.none, []⟩ := by
    simp [Fdb.readLine, Fdb.fieldStep, Fdb.freshRState]
  rw [Fdb.readAll_cons_step hP]
  have hV : Fdb.readLine ⟨tags, [], Option.some ⟨Option.some pn, Option.none, false, [], 0, 0,
      false, false, false, false, [], Option.none⟩, Option.none, []⟩ ('V' :: ':' :: v)
      = Option.some ⟨tags, [], Option.some ⟨Option.some pn, Option.some v, false, [], 0, 0,
          false, false, false, false, [], Option.none⟩, Option.none, []⟩ := by
    simp [Fdb.readLine, Fdb.fieldStep]
  rw [Fdb.readAll_cons_step hV]
  rw [Fdb.meta_seg_r tags [] Option.none [] pn v false [] 0 0 false false false false rep hdeps]
  rw [Fdb.meta_seg_q tags [] Option.none [] pn v _ _ rp 0 false false false false]
  rw [Fdb.meta_seg_s tags [] Option.none [] pn v _ _ _ rt false false false false hvt htag]
  rw [Fdb.meta_seg_f tags [] Option.none [] pn v _ _ _ _ ⟨pn, v, rep, rp, rt, bf, bsc, bx, sh, dirs⟩]
  simp only []
  have hrep : (if rep ≠ [] then rep else []) = rep := by
    by_cases h : rep = [] <;> simp [h]
  rw [hrep]
  obtain ⟨b2, cd2, cf2, hdirs⟩ := Fdb.read_dirs tags [] pn v rep rp rt bf bsc bx sh dirs []
    (if (bf || bsc || bx || sh) = true then true
     else if rt ≠ 0 then true else if rp ≠ 0 then true else if rep ≠ [] then true else false)
    Option.none Option.none [] hvds (by simpa using hndd)
    (fun d hd f hf => rfl)
  simp only [List.nil_append, List.length_nil] at hdirs
  rw [Fdb.readAll_seg_step hdirs]
  have hblank : Fdb.readLine ⟨tags, [], Option.some ⟨Option.some pn, Option.some v, b2, rep,
      rp, rt, bf, bsc, bx, sh, dirs, cd2⟩, cf2, Fdb.fiForDirs 0 0 dirs⟩ []
      = Option.some ⟨tags, [⟨pn, v, rep, rp, rt, bf, bsc, bx, sh, dirs⟩], Option.none, cf2,
          Fdb.fiForDirs 0 0 dirs⟩ := by
    simp [Fdb.readLine, Fdb.blankStep]
  rw [Fdb.readAll_cons_step hblank]
  simp [Fdb.readAll]

/-- C1 witness: a concrete record with a replaces list, priority, tag,
flag, one dir with a non-default ACL and one checksummed file survives
the write-read round trip unchanged. -/
theorem C1_witness :
    Fdb.apk_db_fdb_read [[], ['t']]
        (Fdb.apk_db_fdb_write [[], ['t']]
          ⟨['a'], ['1'], [['b']], 2, 1, true, false, false, false,
           [⟨['e'], ⟨448, 1, 2, Option.none⟩,
             [⟨['c'], ⟨416, 0, 3, Option.none⟩, Option.some ⟨2, [3, 4]⟩⟩]⟩]⟩)
      = Option.some [⟨['a'], ['1'], [['b']], 2, 1, true, false, false, false,
          [⟨['e'], ⟨448, 1, 2, Option.none⟩,
            [⟨['c'], ⟨416, 0, 3, Option.none⟩, Option.some ⟨2, [3, 4]⟩⟩]⟩]⟩] :=
  C1_fdb_roundtrip [[], ['t']] _ (by decide) (by decide)

namespace DirTree

open Apk

theorem map_update_id (l : List DirNode) (n : Str) (new : DirNode)
    (h : ∀ e ∈ l, e.name ≠ n) :
    l.map (fun e => if e.name == n then new else e) = l := by
  induction l with
  | nil => rfl
  | cons x xs ih =>
    have hx : ¬((x.name == n) = true) := by
      simp only [beq_iff_eq]
      exact h x (List.mem_cons_self x xs)
    simp only [List.map_cons, if_neg hx]
    rw [ih (fun e he => h e (List.mem_cons_of_mem _ he))]

theorem update_split (l : List DirNode) (n : Str) (new : DirNode)
    (hnd : (l.map DirNode.name).Nodup) (d : DirNode) (hd : d ∈ l)
    (hdn : d.name = n) :
    ∃ l1 l2, l = l1 ++ d :: l2 ∧
      l.map (fun e => if e.name == n then new else e) = l1 ++ new :: l2 ∧
      (∀ e ∈ l1, e.name ≠ n) ∧ (∀ e ∈ l2, e.name ≠ n) := by
  obtain ⟨l1, l2, rfl⟩ := List.append_of_mem hd
  have hnd' : (l1.map DirNode.name ++ d.name :: l2.map DirNode.name).Nodup := by
    simpa using hnd
  rcases List.nodup_append.mp hnd' with ⟨hn1, hnc, hdisj⟩
  rcases List.nodup_cons.mp hnc with ⟨hd2, hn2⟩
  have h1 : ∀ e ∈ l1, e.name ≠ n := by
    intro e he hen
    exact hdisj (List.mem_map_of_mem _ he)
      (by rw [hen, ← hdn]; exact List.mem_cons_self _ _)
  have h2 : ∀ e ∈ l2, e.name ≠ n := by
    intro e he hen
    exact hd2 (List.mem_map.mpr ⟨e, he, hen.trans hdn.symm⟩)
  refine ⟨l1, l2, rfl, ?_, h1, h2⟩
  rw [List.map_append, List.map_cons, map_update_id l1 n new h1,
    map_update_id l2 n new h2, if_pos (by simp [hdn])]

theorem setDir_diris (s : St) (n : Str) (r : Nat) (p : Option Str) :
    (setDir s n r p).diris = s.diris := by
  unfold setDir
  split <;> rfl

theorem setDir_split (s : St) (n : Str) (r : Nat) (p : Option Str)
    (hnd : (s.dirs.map DirNode.name).Nodup) (d : DirNode) (hd : d ∈ s.dirs)
    (hdn : d.name = n) :
    ∃ l1 l2, s.dirs = l1 ++ d :: l2 ∧
      (setDir s n r p).dirs = l1 ++ (⟨n, r, p⟩ : DirNode) :: l2 ∧
      (∀ e ∈ l1, e.name ≠ n) ∧ (∀ e ∈ l2, e.name ≠ n) := by
  obtain ⟨l1, l2, h1, h2, h3, h4⟩ := update_split s.dirs n ⟨n, r, p⟩ hnd d hd hdn
  have hany : s.dirs.any (fun e => e.name == n) = true :=
    List.any_eq_true.mpr ⟨d, hd, by simp [hdn]⟩
  refine ⟨l1, l2, h1, ?_, h3, h4⟩
  unfold setDir
  rw [if_pos hany]
  exact h2

theorem setDir_absent (s : St) (n : Str) (r : Nat) (p : Option Str)
    (habs : ∀ e ∈ s.dirs, e.name ≠ n) :
    (setDir s n r p).dirs = s.dirs ++ [⟨n, r, p⟩] := by
  unfold setDir
  rw [if_neg (by
    simp only [List.any_eq_true, not_exists]
    intro e
    rintro ⟨he, hbe⟩
    exact habs e he (by simpa using hbe))]

theorem mem_setDir_self (s : St) (n : Str) (r : Nat) (p : Option Str) :
    (⟨n, r, p⟩ : DirNode) ∈ (setDir s n r p).dirs := by
  unfold setDir
  split
  · rename_i hany
    obtain ⟨e, he, hbe⟩ := List.any_eq_true.mp hany
    show (⟨n, r, p⟩ : DirNode)
        ∈ s.dirs.map (fun d => if d.name == n then ⟨n, r, p⟩ else d)
    exact List.mem_map.mpr ⟨e, he, by rw [if_pos hbe]⟩
  · simp

theorem mem_setDir_of_ne (s : St) (n : Str) (r : Nat) (p : Option Str)
    (d : DirNode) (hd : d ∈ s.dirs) (hne : d.name ≠ n) :
    d ∈ (setDir s n r p).dirs := by
  unfold setDir
  split
  · show d ∈ s.dirs.map (fun e => if e.name == n then ⟨n, r, p⟩ else e)
    exact List.mem_map.mpr ⟨d, hd, by rw [if_neg (by simp [hne])]⟩
  · simp [hd]

theorem setDir_mem_elim (s : St) (n : Str) (r : Nat) (p : Option Str)
    (d' : DirNode) (hd' : d' ∈ (setDir s n r p).dirs) :
    d' = (⟨n, r, p⟩ : DirNode) ∨ (d' ∈ s.dirs ∧ d'.name ≠ n) := by
  unfold setDir at hd'
  split at hd'
  · obtain ⟨e, he, hfe⟩ := List.mem_map.mp hd'
    by_cases hen : e.name = n
    · left
      rw [← hfe, if_pos (by simp [hen])]
    · right
      rw [← hfe, if_neg (by simp [hen])]
      exact ⟨he, hen⟩
  · rename_i hany
    rcases List.mem_append.mp hd' with h | h
    · right
      refine ⟨h, ?_⟩
      intro hen
      have : s.dirs.any (fun e => e.name == n) = true :=
        List.any_eq_true.mpr ⟨d', h, by simp [hen]⟩
      simp [this] at hany
    · left
      simpa using h

theorem setDir_nodup (s : St) (n : Str) (r : Nat) (p : Option Str)
    (hnd : (s.dirs.map DirNode.name).Nodup) :
    ((setDir s n r p).dirs.map DirNode.name).Nodup := by
  by_cases hex : ∃ d ∈ s.dirs, d.name = n
  · obtain ⟨d, hd, hdn⟩ := hex
    obtain ⟨l1, l2, h1, h2, _, _⟩ := setDir_split s n r p hnd d hd hdn
    rw [h2]
    rw [h1] at hnd
    simpa [hdn] using hnd
  · push_neg at hex
    rw [setDir_absent s n r p hex]
    simp only [List.map_append, List.map_cons, List.map_nil]
    rw [List.nodup_append]
    refine ⟨hnd, List.nodup_singleton n, ?_⟩
    intro a ha hb
    simp only [List.mem_singleton] at hb
    obtain ⟨e, he, hea⟩ := List.mem_map.mp ha
    exact hex e he (by rw [hea, hb])

end DirTree

namespace DirTree

open Apk

theorem diriCount_setDir (s : St) (n : Str) (r : Nat) (p : Option Str)
    (m : Str) : diriCount (setDir s n r p) m = diriCount s m := by
  unfold diriCount
  rw [setDir_diris]

theorem childCount_setDir_update (s : St) (n : Str) (r : Nat) (p : Option Str)
    (hnd : (s.dirs.map DirNode.name).Nodup) (d : DirNode) (hd : d ∈ s.dirs)
    (hdn : d.name = n) (m : Str) :
    childCount (setDir s n r p) m
        + (if 0 < d.refs ∧ d.parent = Option.some m then 1 else 0)
      = childCount s m + (if 0 < r ∧ p = Option.some m then 1 else 0) := by
  obtain ⟨l1, l2, h1, h2, _, _⟩ := setDir_split s n r p hnd d hd hdn
  unfold childCount
  rw [h2, h1]
  simp only [List.filter_append, List.length_append, List.filter_cons,
    Bool.and_eq_true, decide_eq_true_eq, beq_iff_eq]
  split_ifs <;> simp <;> omega

theorem childCount_setDir_absent (s : St) (n : Str) (r : Nat) (p : Option Str)
    (habs : ∀ e ∈ s.dirs, e.name ≠ n) (m : Str) :
    childCount (setDir s n r p) m
      = childCount s m + (if 0 < r ∧ p = Option.some m then 1 else 0) := by
  unfold childCount
  rw [setDir_absent s n r p habs]
  simp only [List.filter_append, List.length_append, List.filter_cons,
    Bool.and_eq_true, decide_eq_true_eq, beq_iff_eq, List.filter_nil]
  split_ifs <;> simp

theorem diriCount_push (s : St) (k m : Str) :
    diriCount { s with diris := s.diris ++ [k] } m
      = diriCount s m + (if k = m then 1 else 0) := by
  unfold diriCount
  simp only [List.filter_append, List.length_append, List.filter_cons,
    beq_iff_eq, List.filter_nil]
  split_ifs <;> simp

theorem childCount_diris_congr (s : St) (l : List Str) (m : Str) :
    childCount { s with diris := l } m = childCount s m := rfl

theorem diriCount_dirs_congr (s : St) (l : List DirNode) (m : Str) :
    diriCount { s with dirs := l } m = diriCount s m := rfl

theorem filterStr_eraseIdx (l : List Str) (i : Nat) (a : Str)
    (h : l.get? i = Option.some a) (m : Str) :
    ((l.eraseIdx i).filter (fun x => x == m)).length + (if a = m then 1 else 0)
      = (l.filter (fun x => x == m)).length := by
  induction l generalizing i with
  | nil => simp at h
  | cons x xs ih =>
    cases i with
    | zero =>
      simp only [List.get?] at h
      cases h
      simp only [List.eraseIdx, List.filter_cons, beq_iff_eq]
      split_ifs <;> simp
    | succ j =>
      simp only [List.get?] at h
      have := ih j h
      simp only [List.eraseIdx, List.filter_cons, beq_iff_eq]
      split_ifs at this ⊢ <;>
        (try simp only [List.length_cons] at this ⊢) <;> omega

theorem findDir_eq_some (s : St) (d : DirNode)
    (hnd : (s.dirs.map DirNode.name).Nodup) (hd : d ∈ s.dirs) :
    findDir s d.name = Option.some d := by
  unfold findDir
  obtain ⟨l1, l2, hl⟩ := List.append_of_mem hd
  rw [hl]
  rw [hl] at hnd
  have hnd' : (l1.map DirNode.name ++ d.name :: l2.map DirNode.name).Nodup := by
    simpa using hnd
  rcases List.nodup_append.mp hnd' with ⟨_, _, hdisj⟩
  rw [List.find?_append]
  have h1 : l1.find? (fun e => e.name == d.name) = Option.none := by
    rw [List.find?_eq_none]
    intro e he
    simp only [beq_iff_eq]
    intro hen
    exact hdisj (List.mem_map_of_mem _ he)
      (by rw [hen]; exact List.mem_cons_self _ _)
  rw [h1]
  simp [List.find?_cons]

theorem findDir_none_iff (s : St) (n : Str) :
    findDir s n = Option.none ↔ ∀ d ∈ s.dirs, d.name ≠ n := by
  unfold findDir
  rw [List.find?_eq_none]
  constructor
  · intro h d hd hdn
    exact absurd (by simp [hdn]) (h d hd)
  · intro h d hd
    simp [h d hd]

theorem findDir_mem (s : St) (n : Str) (d : DirNode)
    (h : findDir s n = Option.some d) : d ∈ s.dirs ∧ d.name = n := by
  unfold findDir at h
  refine ⟨List.mem_of_find?_eq_some h, ?_⟩
  have := List.find?_some h
  simpa using this

end DirTree

namespace DirTree

open Apk

theorem name_unique (s : St) (hnd : (s.dirs.map DirNode.name).Nodup)
    (e d : DirNode) (he : e ∈ s.dirs) (hd : d ∈ s.dirs)
    (heq : e.name = d.name) : e = d := by
  exact List.inj_on_of_nodup_map hnd he hd heq

theorem diriCount_pos_of_mem (s : St) (m : Str) (hm : m ∈ s.diris) :
    0 < diriCount s m := by
  unfold diriCount
  exact List.length_pos_of_mem (List.mem_filter.mpr ⟨hm, by simp⟩)

theorem childCount_pos (s : St) (c : DirNode) (hc : c ∈ s.dirs)
    (hlive : 0 < c.refs) (m : Str) (hp : c.parent = Option.some m) :
    0 < childCount s m := by
  unfold childCount
  exact List.length_pos_of_mem (List.mem_filter.mpr ⟨hc, by simp [hlive, hp]⟩)

theorem unref_go_step (fuel : Nat) (s : St) (n : Str) (d : DirNode)
    (hfind : findDir s n = Option.some d) :
    dir_unref_go (fuel + 1) s n =
      if 1 < d.refs then setDir s n (d.refs - 1) d.parent
      else if n = [] then setDir s n 0 d.parent
      else
        match d.parent with
        | Option.some p => dir_unref_go fuel (setDir s n 0 Option.none) p
        | Option.none => setDir s n 0 Option.none := by
  simp only [dir_unref_go, hfind]

end DirTree

namespace DirTree

open Apk

theorem childCount_setDir_samepar (s : St) (n : Str) (r : Nat)
    (hnd : (s.dirs.map DirNode.name).Nodup) (d : DirNode) (hd : d ∈ s.dirs)
    (hdn : d.name = n) (hold : 0 < d.refs) (hnew : 0 < r) (m : Str) :
    childCount (setDir s n r d.parent) m = childCount s m := by
  have hu := childCount_setDir_update s n r d.parent hnd d hd hdn m
  by_cases hp : d.parent = Option.some m
  · rw [if_pos (show 0 < d.refs ∧ d.parent = Option.some m from ⟨hold, hp⟩),
      if_pos (show 0 < r ∧ d.parent = Option.some m from ⟨hnew, hp⟩)] at hu
    omega
  · rw [if_neg (show ¬(0 < d.refs ∧ d.parent = Option.some m) from
        fun h => hp h.2),
      if_neg (show ¬(0 < r ∧ d.parent = Option.some m) from
        fun h => hp h.2)] at hu
    omega

theorem childCount_setDir_kill (s : St) (n : Str) (pnew : Option Str)
    (hnd : (s.dirs.map DirNode.name).Nodup) (d : DirNode) (hd : d ∈ s.dirs)
    (hdn : d.name = n) (m : Str) :
    childCount (setDir s n 0 pnew) m
        + (if 0 < d.refs ∧ d.parent = Option.some m then 1 else 0)
      = childCount s m := by
  have hu := childCount_setDir_update s n 0 pnew hnd d hd hdn m
  rw [if_neg (show ¬(0 < 0 ∧ pnew = Option.some m) from
    fun h => absurd h.1 (lt_irrefl 0))] at hu
  rw [Nat.add_zero] at hu
  exact hu

end DirTree

namespace DirTree

open Apk

theorem unref_go_restores : ∀ (fuel : Nat) (s : St) (n : Str),
    n.length < fuel → InvExcept s n → Inv (dir_unref_go fuel s n) := by
  intro fuel
  induction fuel with
  | zero =>
    intro s n hf _
    exact absurd hf (Nat.not_lt_zero _)
  | succ fuel ih =>
    intro s n hf hIE
    obtain ⟨hcore, ⟨d, hd, hdn, hrefs⟩, hrest⟩ := hIE
    have hfind : findDir s n = Option.some d := by
      rw [← hdn]
      exact findDir_eq_some s d hcore.nodup hd
    rw [unref_go_step fuel s n d hfind]
    by_cases hgt : 1 < d.refs
    · rw [if_pos hgt]
      have hccs : ∀ m, childCount (setDir s n (d.refs - 1) d.parent) m
          = childCount s m :=
        fun m => childCount_setDir_samepar s n (d.refs - 1) hcore.nodup d hd hdn
          (by omega) (by omega) m
      have hdcs : ∀ m, diriCount (setDir s n (d.refs - 1) d.parent) m
          = diriCount s m :=
        fun m => diriCount_setDir s n (d.refs - 1) d.parent m
      refine ⟨⟨setDir_nodup s n _ _ hcore.nodup, ?_, ?_, ?_⟩, ?_⟩
      · intro m hm
        rw [setDir_diris] at hm
        obtain ⟨e, he, hem, her⟩ := hcore.diris_live m hm
        by_cases hen : e.name = n
        · refine ⟨⟨n, d.refs - 1, d.parent⟩, mem_setDir_self s n _ _, ?_, ?_⟩
          · show n = m
            rw [← hen]
            exact hem
          · show 0 < d.refs - 1
            omega
        · exact ⟨e, mem_setDir_of_ne s n _ _ e he hen, hem, her⟩
      · intro d' hd' hlive p0 hp0
        rcases setDir_mem_elim s n _ _ d' hd' with heq | ⟨hd's, hne⟩
        · subst heq
          have hp0' : d.parent = Option.some p0 := hp0
          obtain ⟨e, he, hep, her⟩ := hcore.parent_live d hd (by omega) p0 hp0'
          have hepn : e.name ≠ n := by
            intro hcontra
            have hlen := hcore.parent_shorter d hd p0 hp0'
            rw [hdn] at hlen
            rw [hcontra] at hep
            rw [← hep] at hlen
            exact absurd hlen (lt_irrefl _)
          exact ⟨e, mem_setDir_of_ne s n _ _ e he hepn, hep, her⟩
        · obtain ⟨e, he, hep, her⟩ := hcore.parent_live d' hd's hlive p0 hp0
          by_cases hen : e.name = n
          · refine ⟨⟨n, d.refs - 1, d.parent⟩, mem_setDir_self s n _ _, ?_, ?_⟩
            · show n = p0
              rw [← hen]
              exact hep
            · show 0 < d.refs - 1
              omega
          · exact ⟨e, mem_setDir_of_ne s n _ _ e he hen, hep, her⟩
      · intro d' hd' p0 hp0
        rcases setDir_mem_elim s n _ _ d' hd' with heq | ⟨hd's, _⟩
        · subst heq
          have hp0' : d.parent = Option.some p0 := hp0
          have hps := hcore.parent_shorter d hd p0 hp0'
          rw [hdn] at hps
          exact hps
        · exact hcore.parent_shorter d' hd's p0 hp0
      · intro d' hd'
        rcases setDir_mem_elim s n _ _ d' hd' with heq | ⟨hd's, hne⟩
        · subst heq
          show d.refs - 1 = diriCount (setDir s n (d.refs - 1) d.parent) n
            + childCount (setDir s n (d.refs - 1) d.parent) n
          rw [hdcs, hccs]
          omega
        · rw [hdcs, hccs]
          exact hrest d' hd's hne
    · rw [if_neg hgt]
      have hr1 : d.refs = 1 := by omega
      have hdc0 : diriCount s n = 0 := by omega
      have hcc0 : childCount s n = 0 := by omega
      have hnotdiris : ∀ m ∈ s.diris, m ≠ n := by
        intro m hm hmn
        subst hmn
        exact absurd (diriCount_pos_of_mem s m hm) (by omega)
      have hnochild : ∀ c ∈ s.dirs, 0 < c.refs → c.parent ≠ Option.some n := by
        intro c hc hcl hcp
        exact absurd (childCount_pos s c hc hcl n hcp) (by omega)
      by_cases hroot : n = []
      · rw [if_pos hroot]
        have hdpar : d.parent = Option.none := by
          cases hp : d.parent with
          | none => rfl
          | some p =>
            have hps := hcore.parent_shorter d hd p hp
            rw [hdn, hroot] at hps
            simp at hps
        have hccs : ∀ m, childCount (setDir s n 0 d.parent) m
            = childCount s m := by
          intro m
          have hu := childCount_setDir_kill s n d.parent hcore.nodup d hd hdn m
          rw [if_neg (show ¬(0 < d.refs ∧ d.parent = Option.some m) from
            fun h => by
              rw [hdpar] at h
              exact Option.noConfusion h.2)] at hu
          omega
        refine ⟨⟨setDir_nodup s n _ _ hcore.nodup, ?_, ?_, ?_⟩, ?_⟩
        · intro m hm
          rw [setDir_diris] at hm
          obtain ⟨e, he, hem, her⟩ := hcore.diris_live m hm
          have hen : e.name ≠ n := by
            intro hc
            exact hnotdiris m hm (by rw [← hem, hc])
          exact ⟨e, mem_setDir_of_ne s n _ _ e he hen, hem, her⟩
        · intro d' hd' hlive p0 hp0
          rcases setDir_mem_elim s n _ _ d' hd' with heq | ⟨hd's, hne⟩
          · subst heq
            simp at hlive
          · obtain ⟨e, he, hep, her⟩ := hcore.parent_live d' hd's hlive p0 hp0
            have hen : e.name ≠ n := by
              intro hc
              have hpn : p0 = n := by
                rw [← hep, hc]
              exact hnochild d' hd's hlive (hpn ▸ hp0)
            exact ⟨e, mem_setDir_of_ne s n _ _ e he hen, hep, her⟩
        · intro d' hd' p0 hp0
          rcases setDir_mem_elim s n _ _ d' hd' with heq | ⟨hd's, _⟩
          · subst heq
            have hp0' : d.parent = Option.some p0 := hp0
            rw [hdpar] at hp0'
            exact Option.noConfusion hp0'
          · exact hcore.parent_shorter d' hd's p0 hp0
        · intro d' hd'
          rcases setDir_mem_elim s n _ _ d' hd' with heq | ⟨hd's, hne⟩
          · subst heq
            show 0 = diriCount (setDir s n 0 d.parent) n
              + childCount (setDir s n 0 d.parent) n
            rw [diriCount_setDir, hccs]
            omega
          · rw [diriCount_setDir, hccs]
            exact hrest d' hd's hne
      · rw [if_neg hroot]
        have hccs1 : ∀ m, childCount (setDir s n 0 Option.none) m
            + (if 0 < d.refs ∧ d.parent = Option.some m then 1 else 0)
            = childCount s m :=
          fun m => childCount_setDir_kill s n Option.none hcore.nodup d hd hdn m
        have hnodup1 := setDir_nodup s n 0 Option.none hcore.nodup
        have hdiris1 : ∀ m, diriCount (setDir s n 0 Option.none) m
            = diriCount s m :=
          fun m => diriCount_setDir s n 0 Option.none m
        have hlive1 : ∀ m ∈ (setDir s n 0 Option.none).diris,
            ∃ e ∈ (setDir s n 0 Option.none).dirs, e.name = m ∧ 0 < e.refs := by
          intro m hm
          rw [setDir_diris] at hm
          obtain ⟨e, he, hem, her⟩ := hcore.diris_live m hm
          have hen : e.name ≠ n := by
            intro hc
            exact hnotdiris m hm (by rw [← hem, hc])
          exact ⟨e, mem_setDir_of_ne s n _ _ e he hen, hem, her⟩
        have hpl1 : ∀ d' ∈ (setDir s n 0 Option.none).dirs, 0 < d'.refs →
            ∀ p0, d'.parent = Option.some p0 →
              ∃ e ∈ (setDir s n 0 Option.none).dirs, e.name = p0 ∧ 0 < e.refs := by
          intro d' hd' hlive p0 hp0
          rcases setDir_mem_elim s n _ _ d' hd' with heq | ⟨hd's, hne⟩
          · subst heq
            simp at hlive
          · obtain ⟨e, he, hep, her⟩ := hcore.parent_live d' hd's hlive p0 hp0
            have hen : e.name ≠ n := by
              intro hc
              have hpn : p0 = n := by
                rw [← hep, hc]
              exact hnochild d' hd's hlive (hpn ▸ hp0)
            exact ⟨e, mem_setDir_of_ne s n _ _ e he hen, hep, her⟩
        have hps1 : ∀ d' ∈ (setDir s n 0 Option.none).dirs,
            ∀ p0, d'.parent = Option.some p0 → p0.length < d'.name.length := by
          intro d' hd' p0 hp0
          rcases setDir_mem_elim s n _ _ d' hd' with heq | ⟨hd's, _⟩
          · subst heq
            exact Option.noConfusion hp0
          · exact hcore.parent_shorter d' hd's p0 hp0
        have hcc1n : childCount (setDir s n 0 Option.none) n = 0 := by
          by_cases hp : d.parent = Option.some n
          · exact absurd hp (hnochild d hd (by omega))
          · have hu := hccs1 n
            rw [if_neg (show ¬(0 < d.refs ∧ d.parent = Option.some n) from
              fun h => hp h.2)] at hu
            omega
        cases hpar : d.parent with
        | none =>
          show Inv (setDir s n 0 Option.none)
          refine ⟨⟨hnodup1, hlive1, hpl1, hps1⟩, ?_⟩
          intro d' hd'
          rcases setDir_mem_elim s n _ _ d' hd' with heq | ⟨hd's, hne⟩
          · subst heq
            show 0 = diriCount (setDir s n 0 Option.none) n
              + childCount (setDir s n 0 Option.none) n
            rw [hdiris1, hcc1n]
            omega
          · have hth := hccs1 d'.name
            rw [if_neg (show ¬(0 < d.refs ∧ d.parent = Option.some d'.name) from
              fun h => by
                rw [hpar] at h
                exact Option.noConfusion h.2)] at hth
            rw [hdiris1]
            have hre := hrest d' hd's hne
            omega
        | some p =>
          show Inv (dir_unref_go fuel (setDir s n 0 Option.none) p)
          have hpn : p ≠ n := by
            intro hc
            exact hnochild d hd (by omega) (by rw [hpar, hc])
          have hplen : p.length < n.length := by
            have hps := hcore.parent_shorter d hd p hpar
            rw [hdn] at hps
            exact hps
          obtain ⟨e, he, hep, her⟩ := hcore.parent_live d hd (by omega) p hpar
          have hen : e.name ≠ n := by
            rw [hep]
            exact hpn
          have he1 : e ∈ (setDir s n 0 Option.none).dirs :=
            mem_setDir_of_ne s n _ _ e he hen
          have hcc1p : childCount (setDir s n 0 Option.none) p + 1
              = childCount s p := by
            have hu := hccs1 p
            rw [if_pos (show 0 < d.refs ∧ d.parent = Option.some p from
              ⟨by omega, hpar⟩)] at hu
            omega
          apply ih (setDir s n 0 Option.none) p (by omega)
          refine ⟨⟨hnodup1, hlive1, hpl1, hps1⟩, ⟨e, he1, hep, ?_⟩, ?_⟩
          · have hre := hrest e he (by rw [hep]; exact hpn)
            rw [hep] at hre
            rw [hdiris1]
            omega
          · intro d' hd' hnep
            rcases setDir_mem_elim s n _ _ d' hd' with heq | ⟨hd's, hnen⟩
            · subst heq
              show 0 = diriCount (setDir s n 0 Option.none) n
                + childCount (setDir s n 0 Option.none) n
              rw [hdiris1, hcc1n]
              omega
            · have hth := hccs1 d'.name
              rw [if_neg (show ¬(0 < d.refs ∧ d.parent = Option.some d'.name) from
                fun h => by
                  rw [hpar] at h
                  exact hnep (Option.some.inj h.2).symm)] at hth
              rw [hdiris1]
              have hre := hrest d' hd's hnen
              omega

end DirTree

namespace DirTree

open Apk

theorem get_go_step (fuel : Nat) (s : St) (n0 : Str) :
    dir_get_go (fuel + 1) s n0 =
      match findDir s (stripSlash n0) with
      | Option.some d =>
        if 0 < d.refs then
          (setDir s (stripSlash n0) (d.refs + 1) d.parent, stripSlash n0)
        else if stripSlash n0 = [] then
          (setDir s (stripSlash n0) 1 Option.none, stripSlash n0)
        else
          (setDir (dir_get_go fuel s ((rsplitParent (stripSlash n0)).getD [])).1
              (stripSlash n0) 1
              (Option.some
                (dir_get_go fuel s ((rsplitParent (stripSlash n0)).getD [])).2),
            stripSlash n0)
      | Option.none =>
        if stripSlash n0 = [] then
          (setDir s (stripSlash n0) 1 Option.none, stripSlash n0)
        else
          (setDir (dir_get_go fuel s ((rsplitParent (stripSlash n0)).getD [])).1
              (stripSlash n0) 1
              (Option.some
                (dir_get_go fuel s ((rsplitParent (stripSlash n0)).getD [])).2),
            stripSlash n0) := rfl

theorem rsplitParent_getD_length (n : Str) (hn : n ≠ []) :
    ((rsplitParent n).getD []).length < n.length := by
  cases hr : rsplitParent n with
  | none =>
    simp only [hr, Option.getD, List.length_nil]
    exact List.length_pos.mpr hn
  | some p =>
    simp only [hr, Option.getD]
    have hp : p.length ≤ n.length - 1 := by
      simp only [rsplitParent] at hr
      cases hfi : n.reverse.findIdx? (fun c => c == '/') with
      | none => simp [hfi] at hr
      | some k =>
        simp only [hfi, Option.some.injEq] at hr
        subst hr
        simp only [List.length_take]
        omega
    have h0 : 0 < n.length := List.length_pos.mpr hn
    omega

theorem stripSlash_length_le (n : Str) : (stripSlash n).length ≤ n.length := by
  unfold stripSlash
  split
  · simp only [List.length_dropLast]
    exact Nat.sub_le _ _
  · exact Nat.le_refl _

theorem diriCount_eq_of_diris (s t : St) (h : s.diris = t.diris) (m : Str) :
    diriCount s m = diriCount t m := by
  unfold diriCount
  rw [h]

theorem childCount_eq_zero (s : St) (m : Str)
    (h : ∀ c ∈ s.dirs, 0 < c.refs → c.parent ≠ Option.some m) :
    childCount s m = 0 := by
  unfold childCount
  rw [List.length_eq_zero, List.filter_eq_nil]
  intro c hc
  simp only [Bool.and_eq_true, decide_eq_true_eq, beq_iff_eq, not_and]
  intro hl
  exact h c hc hl

theorem diriCount_eq_zero (s : St) (m : Str) (h : m ∉ s.diris) :
    diriCount s m = 0 := by
  unfold diriCount
  rw [List.length_eq_zero, List.filter_eq_nil]
  intro a ha
  simp only [beq_iff_eq]
  intro haa
  exact h (haa ▸ ha)

theorem diriCount_eraseIdx (s : St) (i : Nat) (a : Str)
    (h : s.diris.get? i = Option.some a) (m : Str) :
    diriCount { s with diris := s.diris.eraseIdx i } m
      + (if a = m then 1 else 0) = diriCount s m := by
  unfold diriCount
  exact filterStr_eraseIdx s.diris i a h m

end DirTree

namespace DirTree

open Apk

theorem acquire_root (s : St) (hinv : Inv s)
    (hdead : ∀ e ∈ s.dirs, e.name = [] → e.refs = 0) :
    (setDir s [] 1 Option.none).diris = s.diris ∧
    InvExcept (setDir s [] 1 Option.none) [] ∧
    (∀ d ∈ s.dirs, 0 < d.refs →
      ∃ d' ∈ (setDir s [] 1 Option.none).dirs, d'.name = d.name ∧ 0 < d'.refs) ∧
    (∀ d ∈ s.dirs, ([] : Str).length < d.name.length →
      d ∈ (setDir s [] 1 Option.none).dirs) ∧
    (∀ d' ∈ (setDir s [] 1 Option.none).dirs,
      ([] : Str).length < d'.name.length → d' ∈ s.dirs) := by
  obtain ⟨hcore, hre⟩ := hinv
  have hnotd : ([] : Str) ∉ s.diris := by
    intro hmem
    obtain ⟨e, he, hem, her⟩ := hcore.diris_live [] hmem
    rw [hdead e he hem] at her
    exact absurd her (lt_irrefl 0)
  have hdc0 : diriCount s [] = 0 := diriCount_eq_zero s [] hnotd
  have hcc0 : childCount s [] = 0 := by
    apply childCount_eq_zero
    intro c hc hcl hcp
    obtain ⟨e, he, hem, her⟩ := hcore.parent_live c hc hcl [] hcp
    rw [hdead e he hem] at her
    exact absurd her (lt_irrefl 0)
  have hcc2 : ∀ m, childCount (setDir s [] 1 Option.none) m
      = childCount s m := by
    intro m
    by_cases hex : ∃ e ∈ s.dirs, e.name = []
    · obtain ⟨e, he, hek⟩ := hex
      have he0 : e.refs = 0 := hdead e he hek
      have hu := childCount_setDir_update s [] 1 Option.none hcore.nodup e he hek m
      rw [if_neg (show ¬(0 < e.refs ∧ e.parent = Option.some m) from
          fun h => by
            rw [he0] at h
            exact absurd h.1 (lt_irrefl 0)),
        if_neg (show ¬(0 < 1 ∧ (Option.none : Option Str) = Option.some m) from
          fun h => Option.noConfusion h.2)] at hu
      omega
    · push_neg at hex
      have hu := childCount_setDir_absent s [] 1 Option.none hex m
      rw [if_neg (show ¬(0 < 1 ∧ (Option.none : Option Str) = Option.some m) from
        fun h => Option.noConfusion h.2)] at hu
      omega
  have hdc2 : ∀ m, diriCount (setDir s [] 1 Option.none) m = diriCount s m :=
    fun m => diriCount_setDir s [] 1 Option.none m
  refine ⟨setDir_diris s [] 1 Option.none,
    ⟨⟨setDir_nodup s [] 1 Option.none hcore.nodup, ?_, ?_, ?_⟩,
      ⟨⟨[], 1, Option.none⟩, mem_setDir_self s [] 1 Option.none, rfl, ?_⟩, ?_⟩,
    ?_, ?_, ?_⟩
  · intro m hm
    rw [setDir_diris] at hm
    obtain ⟨e, he, hem, her⟩ := hcore.diris_live m hm
    have hen : e.name ≠ [] := by
      intro hc
      rw [hdead e he hc] at her
      exact absurd her (lt_irrefl 0)
    exact ⟨e, mem_setDir_of_ne s [] 1 Option.none e he hen, hem, her⟩
  · intro d' hd' hlive p0 hp0
    rcases setDir_mem_elim s [] 1 Option.none d' hd' with heq | ⟨hd's, hne⟩
    · subst heq
      exact Option.noConfusion hp0
    · obtain ⟨e, he, hem, her⟩ := hcore.parent_live d' hd's hlive p0 hp0
      have hen : e.name ≠ [] := by
        intro hc
        rw [hdead e he hc] at her
        exact absurd her (lt_irrefl 0)
      exact ⟨e, mem_setDir_of_ne s [] 1 Option.none e he hen, hem, her⟩
  · intro d' hd' p0 hp0
    rcases setDir_mem_elim s [] 1 Option.none d' hd' with heq | ⟨hd's, _⟩
    · subst heq
      exact Option.noConfusion hp0
    · exact hcore.parent_shorter d' hd's p0 hp0
  · show 1 = diriCount (setDir s [] 1 Option.none) []
      + childCount (setDir s [] 1 Option.none) [] + 1
    rw [hdc2, hcc2]
    omega
  · intro d' hd' hne
    rcases setDir_mem_elim s [] 1 Option.none d' hd' with heq | ⟨hd's, hnen⟩
    · subst heq
      exact absurd rfl hne
    · rw [hdc2, hcc2]
      exact hre d' hd's
  · intro d0 hd0 hl
    have hen : d0.name ≠ [] := by
      intro hc
      rw [hdead d0 hd0 hc] at hl
      exact absurd hl (lt_irrefl 0)
    exact ⟨d0, mem_setDir_of_ne s [] 1 Option.none d0 hd0 hen, rfl, hl⟩
  · intro d0 hd0 hlen
    exact mem_setDir_of_ne s [] 1 Option.none d0 hd0
      (List.length_pos.mp hlen)
  · intro d' hd' hlen
    rcases setDir_mem_elim s [] 1 Option.none d' hd' with heq | ⟨hd's, _⟩
    · subst heq
      simp at hlen
    · exact hd's

end DirTree

namespace DirTree

open Apk

theorem acquire_child (s1 : St) (k q : Str) (hql : q.length < k.length)
    (hIE : InvExcept s1 q)
    (hdead : ∀ e ∈ s1.dirs, e.name = k → e.refs = 0)
    (hdk0 : diriCount s1 k = 0)
    (hck0 : childCount s1 k = 0) :
    (setDir s1 k 1 (Option.some q)).diris = s1.diris ∧
    InvExcept (setDir s1 k 1 (Option.some q)) k ∧
    (∀ d ∈ s1.dirs, 0 < d.refs →
      ∃ d' ∈ (setDir s1 k 1 (Option.some q)).dirs,
        d'.name = d.name ∧ 0 < d'.refs) ∧
    (∀ d ∈ s1.dirs, k.length < d.name.length →
      d ∈ (setDir s1 k 1 (Option.some q)).dirs) ∧
    (∀ d' ∈ (setDir s1 k 1 (Option.some q)).dirs,
      k.length < d'.name.length → d' ∈ s1.dirs) := by
  obtain ⟨hcore1, ⟨dq, hdq, hdqn, hdqrefs⟩, hrest1⟩ := hIE
  have hkq : q ≠ k := by
    intro h
    rw [h] at hql
    exact absurd hql (lt_irrefl _)
  have hcc2 : ∀ m, childCount (setDir s1 k 1 (Option.some q)) m
      = childCount s1 m + (if q = m then 1 else 0) := by
    intro m
    by_cases hex : ∃ e ∈ s1.dirs, e.name = k
    · obtain ⟨e, he, hek⟩ := hex
      have he0 : e.refs = 0 := hdead e he hek
      have hu := childCount_setDir_update s1 k 1 (Option.some q)
        hcore1.nodup e he hek m
      rw [if_neg (show ¬(0 < e.refs ∧ e.parent = Option.some m) from
        fun h => by
          rw [he0] at h
          exact absurd h.1 (lt_irrefl 0))] at hu
      by_cases hqm : q = m
      · rw [if_pos (show 0 < 1 ∧ Option.some q = Option.some m from
          ⟨Nat.one_pos, by rw [hqm]⟩)] at hu
        rw [if_pos hqm]
        omega
      · rw [if_neg (show ¬(0 < 1 ∧ Option.some q = Option.some m) from
          fun h => hqm (Option.some.inj h.2))] at hu
        rw [if_neg hqm]
        omega
    · push_neg at hex
      have hu := childCount_setDir_absent s1 k 1 (Option.some q) hex m
      by_cases hqm : q = m
      · rw [if_pos (show 0 < 1 ∧ Option.some q = Option.some m from
          ⟨Nat.one_pos, by rw [hqm]⟩)] at hu
        rw [if_pos hqm]
        omega
      · rw [if_neg (show ¬(0 < 1 ∧ Option.some q = Option.some m) from
          fun h => hqm (Option.some.inj h.2))] at hu
        rw [if_neg hqm]
        omega
  have hdc2 : ∀ m, diriCount (setDir s1 k 1 (Option.some q)) m
      = diriCount s1 m :=
    fun m => diriCount_setDir s1 k 1 (Option.some q) m
  refine ⟨setDir_diris s1 k 1 (Option.some q),
    ⟨⟨setDir_nodup s1 k 1 (Option.some q) hcore1.nodup, ?_, ?_, ?_⟩,
      ⟨⟨k, 1, Option.some q⟩, mem_setDir_self s1 k 1 (Option.some q), rfl, ?_⟩,
      ?_⟩,
    ?_, ?_, ?_⟩
  · intro m hm
    rw [setDir_diris] at hm
    obtain ⟨e, he, hem, her⟩ := hcore1.diris_live m hm
    have hen : e.name ≠ k := by
      intro hc
      rw [hdead e he hc] at her
      exact absurd her (lt_irrefl 0)
    exact ⟨e, mem_setDir_of_ne s1 k 1 (Option.some q) e he hen, hem, her⟩
  · intro d' hd' hlive p0 hp0
    rcases setDir_mem_elim s1 k 1 (Option.some q) d' hd' with heq | ⟨hd's, hne⟩
    · subst heq
      have hp0' : Option.some q = Option.some p0 := hp0
      have hqp : q = p0 := Option.some.inj hp0'
      refine ⟨dq, mem_setDir_of_ne s1 k 1 (Option.some q) dq hdq
        (by rw [hdqn]; exact hkq), ?_, ?_⟩
      · rw [hdqn, hqp]
      · omega
    · obtain ⟨e, he, hem, her⟩ := hcore1.parent_live d' hd's hlive p0 hp0
      have hen : e.name ≠ k := by
        intro hc
        rw [hdead e he hc] at her
        exact absurd her (lt_irrefl 0)
      exact ⟨e, mem_setDir_of_ne s1 k 1 (Option.some q) e he hen, hem, her⟩
  · intro d' hd' p0 hp0
    rcases setDir_mem_elim s1 k 1 (Option.some q) d' hd' with heq | ⟨hd's, _⟩
    · subst heq
      have hp0' : Option.some q = Option.some p0 := hp0
      show p0.length < k.length
      rw [← Option.some.inj hp0']
      exact hql
    · exact hcore1.parent_shorter d' hd's p0 hp0
  · show 1 = diriCount (setDir s1 k 1 (Option.some q)) k
      + childCount (setDir s1 k 1 (Option.some q)) k + 1
    rw [hdc2, hcc2, if_neg hkq]
    omega
  · intro d' hd' hne
    rcases setDir_mem_elim s1 k 1 (Option.some q) d' hd' with heq | ⟨hd's, hnen⟩
    · subst heq
      exact absurd rfl hne
    · by_cases hq' : d'.name = q
      · have hdd : d' = dq :=
          name_unique s1 hcore1.nodup d' dq hd's hdq (by rw [hq', hdqn])
        rw [hq', hdc2, hcc2, if_pos rfl, hdd]
        omega
      · rw [hdc2, hcc2, if_neg (fun h => hq' h.symm)]
        have hre := hrest1 d' hd's hq'
        omega
  · intro d0 hd0 hl
    have hen : d0.name ≠ k := by
      intro hc
      rw [hdead d0 hd0 hc] at hl
      exact absurd hl (lt_irrefl 0)
    exact ⟨d0, mem_setDir_of_ne s1 k 1 (Option.some q) d0 hd0 hen, rfl, hl⟩
  · intro d0 hd0 hlen
    exact mem_setDir_of_ne s1 k 1 (Option.some q) d0 hd0
      (fun h => absurd (h ▸ hlen) (lt_irrefl _))
  · intro d' hd' hlen
    rcases setDir_mem_elim s1 k 1 (Option.some q) d' hd' with heq | ⟨hd's, _⟩
    · subst heq
      exact absurd hlen (lt_irrefl _)
    · exact hd's

end DirTree

namespace DirTree

open Apk

theorem get_go_step_some (fuel : Nat) (s : St) (n0 : Str) (d : DirNode)
    (hfind : findDir s (stripSlash n0) = Option.some d) :
    dir_get_go (fuel + 1) s n0 =
      if 0 < d.refs then
        (setDir s (stripSlash n0) (d.refs + 1) d.parent, stripSlash n0)
      else if stripSlash n0 = [] then
        (setDir s (stripSlash n0) 1 Option.none, stripSlash n0)
      else
        (setDir (dir_get_go fuel s ((rsplitParent (stripSlash n0)).getD [])).1
            (stripSlash n0) 1
            (Option.some
              (dir_get_go fuel s ((rsplitParent (stripSlash n0)).getD [])).2),
          stripSlash n0) := by
  simp only [dir_get_go, hfind]

theorem get_go_step_none (fuel : Nat) (s : St) (n0 : Str)
    (hfind : findDir s (stripSlash n0) = Option.none) :
    dir_get_go (fuel + 1) s n0 =
      if stripSlash n0 = [] then
        (setDir s (stripSlash n0) 1 Option.none, stripSlash n0)
      else
        (setDir (dir_get_go fuel s ((rsplitParent (stripSlash n0)).getD [])).1
            (stripSlash n0) 1
            (Option.some
              (dir_get_go fuel s ((rsplitParent (stripSlash n0)).getD [])).2),
          stripSlash n0) := by
  simp only [dir_get_go, hfind]

theorem acquire_compose (s : St) (k : Str) (r1 : St) (q : Str)
    (hinv : Inv s)
    (hdeadS : ∀ e ∈ s.dirs, e.name = k → e.refs = 0)
    (hql : q.length < k.length)
    (hdi : r1.diris = s.diris)
    (hIE : InvExcept r1 q)
    (hlv : ∀ d ∈ s.dirs, 0 < d.refs →
      ∃ d' ∈ r1.dirs, d'.name = d.name ∧ 0 < d'.refs)
    (hff : ∀ d ∈ s.dirs, q.length < d.name.length → d ∈ r1.dirs)
    (hbf : ∀ d' ∈ r1.dirs, q.length < d'.name.length → d' ∈ s.dirs) :
    (setDir r1 k 1 (Option.some q)).diris = s.diris ∧
    InvExcept (setDir r1 k 1 (Option.some q)) k ∧
    (∀ d ∈ s.dirs, 0 < d.refs →
      ∃ d' ∈ (setDir r1 k 1 (Option.some q)).dirs,
        d'.name = d.name ∧ 0 < d'.refs) ∧
    (∀ d ∈ s.dirs, k.length < d.name.length →
      d ∈ (setDir r1 k 1 (Option.some q)).dirs) ∧
    (∀ d' ∈ (setDir r1 k 1 (Option.some q)).dirs,
      k.length < d'.name.length → d' ∈ s.dirs) := by
  have hdead1 : ∀ e ∈ r1.dirs, e.name = k → e.refs = 0 := by
    intro e he hek
    exact hdeadS e (hbf e he (by rw [hek]; exact hql)) hek
  have hnotdS : k ∉ s.diris := by
    intro hmem
    obtain ⟨e, he, hem, her⟩ := hinv.1.diris_live k hmem
    rw [hdeadS e he hem] at her
    exact absurd her (lt_irrefl 0)
  have hdk0 : diriCount r1 k = 0 := by
    rw [diriCount_eq_of_diris r1 s hdi]
    exact diriCount_eq_zero s k hnotdS
  have hck0 : childCount r1 k = 0 := by
    apply childCount_eq_zero
    intro c hc hcl hcp
    have hlen : k.length < c.name.length := hIE.1.parent_shorter c hc k hcp
    have hcs : c ∈ s.dirs := hbf c hc (by omega)
    obtain ⟨e, he, hem, her⟩ := hinv.1.parent_live c hcs hcl k hcp
    rw [hdeadS e he hem] at her
    exact absurd her (lt_irrefl 0)
  obtain ⟨hdi2, hIE2, hlv2, hff2, hbf2⟩ :=
    acquire_child r1 k q hql hIE hdead1 hdk0 hck0
  refine ⟨hdi2.trans hdi, hIE2, ?_, ?_, ?_⟩
  · intro d hd hl
    obtain ⟨d1, hd1, hn1, hl1⟩ := hlv d hd hl
    obtain ⟨d2, hd2, hn2, hl2⟩ := hlv2 d1 hd1 hl1
    exact ⟨d2, hd2, hn2.trans hn1, hl2⟩
  · intro d hd hlen
    exact hff2 d (hff d hd (by omega)) hlen
  · intro d' hd' hlen
    have hr1 : d' ∈ r1.dirs := hbf2 d' hd' hlen
    exact hbf d' hr1 (by omega)

end DirTree

namespace DirTree

open Apk

theorem get_go_spec : ∀ (fuel : Nat) (s : St) (n0 : Str),
    n0.length < fuel → Inv s →
    (dir_get_go fuel s n0).2 = stripSlash n0 ∧
    (dir_get_go fuel s n0).1.diris = s.diris ∧
    InvExcept (dir_get_go fuel s n0).1 (stripSlash n0) ∧
    (∀ d ∈ s.dirs, 0 < d.refs →
      ∃ d' ∈ (dir_get_go fuel s n0).1.dirs, d'.name = d.name ∧ 0 < d'.refs) ∧
    (∀ d ∈ s.dirs, (stripSlash n0).length < d.name.length →
      d ∈ (dir_get_go fuel s n0).1.dirs) ∧
    (∀ d' ∈ (dir_get_go fuel s n0).1.dirs,
      (stripSlash n0).length < d'.name.length → d' ∈ s.dirs) := by
  intro fuel
  induction fuel with
  | zero =>
    intro s n0 hf _
    exact absurd hf (Nat.not_lt_zero _)
  | succ fuel ih =>
    intro s n0 hf hinv
    have hkle : (stripSlash n0).length ≤ n0.length := stripSlash_length_le n0
    obtain ⟨k, hk⟩ : ∃ k, stripSlash n0 = k := ⟨_, rfl⟩
    rw [hk] at hkle ⊢
    cases hfind : findDir s k with
    | some d =>
      have hres := get_go_step_some fuel s n0 d (by rw [hk]; exact hfind)
      rw [hk] at hres
      obtain ⟨hd_mem, hdname⟩ := findDir_mem s k d hfind
      by_cases hlive : 0 < d.refs
      · rw [if_pos hlive] at hres
        rw [hres]
        have hdrefs := hinv.2 d hd_mem
        rw [hdname] at hdrefs
        have hccA : ∀ m, childCount (setDir s k (d.refs + 1) d.parent) m
            = childCount s m :=
          fun m => childCount_setDir_samepar s k (d.refs + 1) hinv.1.nodup
            d hd_mem hdname hlive (by omega) m
        have hdcA : ∀ m, diriCount (setDir s k (d.refs + 1) d.parent) m
            = diriCount s m :=
          fun m => diriCount_setDir s k (d.refs + 1) d.parent m
        refine ⟨rfl, setDir_diris s k (d.refs + 1) d.parent,
          ⟨⟨setDir_nodup s k (d.refs + 1) d.parent hinv.1.nodup, ?_, ?_, ?_⟩,
            ⟨⟨k, d.refs + 1, d.parent⟩,
              mem_setDir_self s k (d.refs + 1) d.parent, rfl, ?_⟩, ?_⟩,
          ?_, ?_, ?_⟩
        · intro m hm
          rw [setDir_diris] at hm
          obtain ⟨e, he, hem, her⟩ := hinv.1.diris_live m hm
          by_cases hen : e.name = k
          · refine ⟨⟨k, d.refs + 1, d.parent⟩,
              mem_setDir_self s k (d.refs + 1) d.parent, ?_, ?_⟩
            · show k = m
              rw [← hen]
              exact hem
            · show 0 < d.refs + 1
              omega
          · exact ⟨e, mem_setDir_of_ne s k (d.refs + 1) d.parent e he hen,
              hem, her⟩
        · intro d' hd' hlv p0 hp0
          rcases setDir_mem_elim s k (d.refs + 1) d.parent d' hd'
            with heq | ⟨hd's, hne⟩
          · subst heq
            have hp0' : d.parent = Option.some p0 := hp0
            obtain ⟨e, he, hem, her⟩ :=
              hinv.1.parent_live d hd_mem hlive p0 hp0'
            have hen : e.name ≠ k := by
              intro hcontra
              have hlen := hinv.1.parent_shorter d hd_mem p0 hp0'
              rw [hdname] at hlen
              rw [hcontra] at hem
              rw [← hem] at hlen
              exact absurd hlen (lt_irrefl _)
            exact ⟨e, mem_setDir_of_ne s k (d.refs + 1) d.parent e he hen,
              hem, her⟩
          · obtain ⟨e, he, hem, her⟩ := hinv.1.parent_live d' hd's hlv p0 hp0
            by_cases hen : e.name = k
            · refine ⟨⟨k, d.refs + 1, d.parent⟩,
                mem_setDir_self s k (d.refs + 1) d.parent, ?_, ?_⟩
              · show k = p0
                rw [← hen]
                exact hem
              · show 0 < d.refs + 1
                omega
            · exact ⟨e, mem_setDir_of_ne s k (d.refs + 1) d.parent e he hen,
                hem, her⟩
        · intro d' hd' p0 hp0
          rcases setDir_mem_elim s k (d.refs + 1) d.parent d' hd'
            with heq | ⟨hd's, _⟩
          · subst heq
            have hp0' : d.parent = Option.some p0 := hp0
            have hps := hinv.1.parent_shorter d hd_mem p0 hp0'
            rw [hdname] at hps
            exact hps
          · exact hinv.1.parent_shorter d' hd's p0 hp0
        · show d.refs + 1 = diriCount (setDir s k (d.refs + 1) d.parent) k
            + childCount (setDir s k (d.refs + 1) d.parent) k + 1
          rw [hdcA, hccA]
          omega
        · intro d' hd' hne
          rcases setDir_mem_elim s k (d.refs + 1) d.parent d' hd'
            with heq | ⟨hd's, _⟩
          · subst heq
            exact absurd rfl hne
          · rw [hdcA, hccA]
            exact hinv.2 d' hd's
        · intro d0 hd0 hl
          by_cases hen : d0.name = k
          · refine ⟨⟨k, d.refs + 1, d.parent⟩,
              mem_setDir_self s k (d.refs + 1) d.parent, ?_, ?_⟩
            · show k = d0.name
              rw [hen]
            · show 0 < d.refs + 1
              omega
          · exact ⟨d0, mem_setDir_of_ne s k (d.refs + 1) d.parent d0 hd0 hen,
              rfl, hl⟩
        · intro d0 hd0 hlen
          exact mem_setDir_of_ne s k (d.refs + 1) d.parent d0 hd0
            (fun h => absurd (h ▸ hlen) (lt_irrefl _))
        · intro d' hd' hlen
          rcases setDir_mem_elim s k (d.refs + 1) d.parent d' hd'
            with heq | ⟨hd's, _⟩
          · subst heq
            exact absurd hlen (lt_irrefl _)
          · exact hd's
      · rw [if_neg hlive] at hres
        have hd0 : d.refs = 0 := by omega
        have hdeadS : ∀ e ∈ s.dirs, e.name = k → e.refs = 0 := by
          intro e he hek
          have hed : e = d :=
            name_unique s hinv.1.nodup e d he hd_mem (by rw [hek, hdname])
          rw [hed, hd0]
        by_cases hk0 : k = []
        · rw [if_pos hk0] at hres
          subst hk0
          rw [hres]
          obtain ⟨hdi, hIE, hlv, hffr, hbfr⟩ := acquire_root s hinv hdeadS
          exact ⟨rfl, hdi, hIE, hlv, hffr, hbfr⟩
        · rw [if_neg hk0] at hres
          have hpk : ((rsplitParent k).getD []).length < k.length :=
            rsplitParent_getD_length k hk0
          obtain ⟨h2, hdi, hIE, hlv, hff, hbf⟩ :=
            ih s ((rsplitParent k).getD []) (by omega) hinv
          have hql : (stripSlash ((rsplitParent k).getD [])).length
              < k.length := by
            have hsl := stripSlash_length_le ((rsplitParent k).getD [])
            omega
          rw [h2] at hres
          rw [hres]
          obtain ⟨hdi2, hIE2, hlv2, hff2, hbf2⟩ :=
            acquire_compose s k
              (dir_get_go fuel s ((rsplitParent k).getD [])).1
              (stripSlash ((rsplitParent k).getD []))
              hinv hdeadS hql hdi hIE hlv hff hbf
          exact ⟨rfl, hdi2, hIE2, hlv2, hff2, hbf2⟩
    | none =>
      have hres := get_go_step_none fuel s n0 (by rw [hk]; exact hfind)
      rw [hk] at hres
      have habs : ∀ e ∈ s.dirs, e.name ≠ k := (findDir_none_iff s k).mp hfind
      have hdeadS : ∀ e ∈ s.dirs, e.name = k → e.refs = 0 := by
        intro e he hek
        exact absurd hek (habs e he)
      by_cases hk0 : k = []
      · rw [if_pos hk0] at hres
        subst hk0
        rw [hres]
        obtain ⟨hdi, hIE, hlv, hffr, hbfr⟩ := acquire_root s hinv hdeadS
        exact ⟨rfl, hdi, hIE, hlv, hffr, hbfr⟩
      · rw [if_neg hk0] at hres
        have hpk : ((rsplitParent k).getD []).length < k.length :=
          rsplitParent_getD_length k hk0
        obtain ⟨h2, hdi, hIE, hlv, hff, hbf⟩ :=
          ih s ((rsplitParent k).getD []) (by omega) hinv
        have hql : (stripSlash ((rsplitParent k).getD [])).length
            < k.length := by
          have hsl := stripSlash_length_le ((rsplitParent k).getD [])
          omega
        rw [h2] at hres
        rw [hres]
        obtain ⟨hdi2, hIE2, hlv2, hff2, hbf2⟩ :=
          acquire_compose s k
            (dir_get_go fuel s ((rsplitParent k).getD [])).1
            (stripSlash ((rsplitParent k).getD []))
            hinv hdeadS hql hdi hIE hlv hff hbf
        exact ⟨rfl, hdi2, hIE2, hlv2, hff2, hbf2⟩

end DirTree

namespace DirTree

open Apk

theorem Inv_init : Inv ⟨[], []⟩ := by
  refine ⟨⟨?_, ?_, ?_, ?_⟩, ?_⟩ <;> simp

theorem Inv_diri_new (s : St) (name : Str) (ih : Inv s) :
    Inv (diri_new s name) := by
  show Inv { (dir_get_go (name.length + 1) s name).1 with
    diris := (dir_get_go (name.length + 1) s name).1.diris
      ++ [(dir_get_go (name.length + 1) s name).2] }
  obtain ⟨h2, hdi, hIE, hlv, hff, hbf⟩ :=
    get_go_spec (name.length + 1) s name (by omega) ih
  obtain ⟨hcore1, ⟨dq, hdq, hdqn, hdqrefs⟩, hrest1⟩ := hIE
  rw [h2]
  refine ⟨⟨?_, ?_, ?_, ?_⟩, ?_⟩
  · exact hcore1.nodup
  · intro m hm
    rcases List.mem_append.mp hm with hm1 | hm2
    · exact hcore1.diris_live m hm1
    · refine ⟨dq, hdq, ?_, by omega⟩
      rw [hdqn]
      exact (List.mem_singleton.mp hm2).symm
  · exact hcore1.parent_live
  · exact hcore1.parent_shorter
  · intro d' hd'
    by_cases hq' : d'.name = stripSlash name
    · have hdd : d' = dq :=
        name_unique (dir_get_go (name.length + 1) s name).1 hcore1.nodup
          d' dq hd' hdq (hq'.trans hdqn.symm)
      rw [hq', diriCount_push, childCount_diris_congr, if_pos rfl, hdd]
      omega
    · rw [diriCount_push, childCount_diris_congr,
        if_neg (fun h => hq' h.symm)]
      have hre := hrest1 d' hd' hq'
      omega

theorem Inv_diri_free (s : St) (i : Nat) (ih : Inv s) :
    Inv (diri_free s i) := by
  unfold diri_free
  cases hget : s.diris.get? i with
  | none => exact ih
  | some m =>
    show Inv (dir_unref { s with diris := s.diris.eraseIdx i } m)
    have hm : m ∈ s.diris := List.get?_mem hget
    obtain ⟨e, he, hem, her⟩ := ih.1.diris_live m hm
    show Inv (dir_unref_go (m.length + 1)
      { s with diris := s.diris.eraseIdx i } m)
    apply unref_go_restores (m.length + 1) _ m (by omega)
    refine ⟨⟨ih.1.nodup, ?_, ?_, ?_⟩, ⟨e, he, hem, ?_⟩, ?_⟩
    · intro m' hm'
      have hm's : m' ∈ s.diris := List.mem_of_mem_eraseIdx hm'
      exact ih.1.diris_live m' hm's
    · exact ih.1.parent_live
    · exact ih.1.parent_shorter
    · have her2 := ih.2 e he
      rw [hem] at her2
      have hde := diriCount_eraseIdx s i m hget m
      rw [if_pos rfl] at hde
      have hce := childCount_diris_congr s (s.diris.eraseIdx i) m
      omega
    · intro d' hd' hne
      have hre := ih.2 d' hd'
      have hde := diriCount_eraseIdx s i m hget d'.name
      rw [if_neg (fun h => hne h.symm)] at hde
      have hce := childCount_diris_congr s (s.diris.eraseIdx i) d'.name
      omega

theorem Inv_reach : ∀ s, Reach s → Inv s := by
  intro s hs
  induction hs with
  | init => exact Inv_init
  | step_new name _ ihs => exact Inv_diri_new _ name ihs
  | step_free i _ ihs => exact Inv_diri_free _ i ihs

end DirTree

/-- C9 counterexample: creating a single `DirInstance` for `a/b` from the
empty database is reachable, yet the resulting state holds a live directory
node (the auto-created parent `a`) whose refcount differs from the number
of `DirInstance` records owning it, refuting the claimed invariant
`d.refs == count(DirInstance di : di.dir == d)`. -/
theorem C9_counterexample :
    DirTree.Reach (DirTree.diri_new ⟨[], []⟩ ['a', '/', 'b']) ∧
    ∃ d ∈ (DirTree.diri_new ⟨[], []⟩ ['a', '/', 'b']).dirs,
      0 < d.refs ∧
        d.refs ≠ DirTree.diriCount
          (DirTree.diri_new ⟨[], []⟩ ['a', '/', 'b']) d.name :=
  ⟨DirTree.Reach.step_new ['a', '/', 'b'] DirTree.Reach.init, by decide⟩

/-- C9 (amended): in every state reachable by creating and freeing
`DirInstance`s, a directory node's refcount equals the number of owning
`DirInstance` records plus the number of live child directories holding a
parent reference on it. -/
theorem C9_dir_refcount (s : DirTree.St) (hs : DirTree.Reach s)
    (d : DirTree.DirNode) (hd : d ∈ s.dirs) (hlive : 0 < d.refs) :
    d.refs = DirTree.diriCount s d.name + DirTree.childCount s d.name :=
  (DirTree.Inv_reach s hs).2 d hd

/-- C9 witness: the amended invariant instantiated at the reachable state
created by one `diri_new` of `a/b` and at its leaf node. -/
theorem C9_witness :
    (⟨['a', '/', 'b'], 1, Option.some ['a']⟩ : DirTree.DirNode)
        ∈ (DirTree.diri_new ⟨[], []⟩ ['a', '/', 'b']).dirs ∧
    (1 : Nat) = DirTree.diriCount (DirTree.diri_new ⟨[], []⟩ ['a', '/', 'b'])
        ['a', '/', 'b']
      + DirTree.childCount (DirTree.diri_new ⟨[], []⟩ ['a', '/', 'b'])
        ['a', '/', 'b'] :=
  ⟨by decide,
    C9_dir_refcount _
      (DirTree.Reach.step_new ['a', '/', 'b'] DirTree.Reach.init)
      ⟨['a', '/', 'b'], 1, Option.some ['a']⟩ (by decide) (by decide)⟩
